import Mathlib

/-!
Index advisor: workload model and selection engine

A shallow embedding of the value types of `workload/workload.go` (and of its
copy `workload.go`, package `main`, which has the same function bodies):
`IndexConfCost.Less`, `Column`, `Index` with `Key`, `DDL` and `PrefixContain`,
the constructors `NewColumn`, `NewColumns`, `NewIndex`, `SQL.Type`, `Plan` and
`WorkloadInfo.AllSchemaNames`, followed by the selection engine of the package
`advisor` as the specification describes it and the helper `newIndex4Test` of
its tests, and the properties of each.

Modelling conventions.

* A Go `string` is a Lean `String`, taken as its sequence of characters;
  `fmt.Sprintf` with `%v` verbs on strings is concatenation, and `strings.Join`
  is `String.intercalate`.
* A Go `int` is an `Int`; nothing here does arithmetic on it, it is only
  compared.
* A Go `float64` query cost is a rational number: every finite `float64` is a
  rational.  `IndexConfCost.Less` takes the operations of the method
  (subtraction, absolute value, maximum, division, comparison) exactly, without
  rounding; `IndexConfCost.LessRounded` is the same body with the rounding of
  the subtraction, of the division and of the literal `0.01` written out, and
  `roundFloat64` is that rounding (binary64, to nearest, ties to even).  In
  both, division by zero is kept as IEEE-754 has it: for a non-negative
  numerator the quotient is `+Inf` or `NaN`, and neither is below a finite
  bound.
* `strings.ToLower` maps each character through `unicode.ToLower`, whose table
  belongs to the Go release.  `ToLower`, `NewColumn`, `NewColumns` and
  `NewIndex` lower the letters `A`..`Z`; `ToLowerWith`, `NewColumnWith`,
  `NewColumnsWith` and `NewIndexWith` are the same bodies over the mapping as a
  parameter.
* A `utils.Set` is the list of its elements.
* A call that can panic or fail returns an `Option` or an `Except`.
-/

namespace Workload

/-! ## `IndexConfCost` -/

/-- The cost of an index configuration (`type IndexConfCost struct`). -/
structure IndexConfCost where
  TotalWorkloadQueryCost : ℚ
  TotalNumberOfIndexColumns : Int
  deriving DecidableEq, Repr

/-- The test `x / y < bound` as Go evaluates it on `float64` for a numerator
`x ≥ 0`: when `y` is zero the quotient is `+Inf` (or `NaN` for `0 / 0`) and the
comparison is false; otherwise it is the comparison of the quotient. -/
def quotLt (x y bound : ℚ) : Bool :=
  if y = 0 then false else decide (x / y < bound)

/-- The method `func (c IndexConfCost) Less(other IndexConfCost) bool`, its
arithmetic taken exactly; `IndexConfCost.LessRounded` below has the rounding of
`float64`. -/
def IndexConfCost.Less (c other : IndexConfCost) : Bool :=
  if c.TotalNumberOfIndexColumns = 0 then -- not initialized
    false
  else if other.TotalNumberOfIndexColumns = 0 then -- not initialized
    true
  else
    let cc := c.TotalWorkloadQueryCost
    let cOther := other.TotalWorkloadQueryCost
    if decide (|cc - cOther| < 10) || quotLt |cc - cOther| (max cc cOther) (1 / 100) then
      -- if they have the same cost, then the less columns, the better.
      decide (c.TotalNumberOfIndexColumns < other.TotalNumberOfIndexColumns)
    else
      decide (c.TotalWorkloadQueryCost < other.TotalWorkloadQueryCost)

/-- The integer nearest to `q`; of the two integers at distance one half, the
even one. -/
def roundHalfEven (q : ℚ) : Int :=
  if q - ⌊q⌋ < 1 / 2 then ⌊q⌋
  else if 1 / 2 < q - ⌊q⌋ then ⌊q⌋ + 1
  else if ⌊q⌋ % 2 = 0 then ⌊q⌋ else ⌊q⌋ + 1

/-- The `float64` nearest to the real number `q` (IEEE-754 binary64, round to
nearest, ties to even), which is the result Go gives to an arithmetic operation
whose exact result is `q`.  With `2 ^ e ≤ |q| < 2 ^ (e + 1)`, the `float64`
numbers in that range are the multiples of `2 ^ (e - 52)`; below `2 ^ (-1022)`
they are the multiples of `2 ^ (-1074)`.  The exponent is not bounded above: a
result beyond the largest `float64`, which Go makes `+Inf` or `-Inf`, is here a
finite number of at least `2 ^ 1023` in absolute value, and like the infinity it
is below no bound that `Less` compares it with. -/
def roundFloat64 (q : ℚ) : ℚ :=
  if q = 0 then 0
  else (roundHalfEven (q / 2 ^ (max (Int.log 2 |q|) (-1022) - 52)) : ℚ)
      * 2 ^ (max (Int.log 2 |q|) (-1022) - 52)

/-- The method `func (c IndexConfCost) Less(other IndexConfCost) bool` with the
rounding of its `float64` operations written out: `fl` rounds the exact result
of the subtraction `cc-cOther`, of the division by `math.Max(cc, cOther)` and of
the literal `0.01`; `math.Abs`, `math.Max`, the literal `10` and the comparisons
are exact in `float64`.  A division by zero gives `+Inf` or `NaN`, which is not
below the bound.  With `roundFloat64` for `fl` this is the method on `float64`
costs; with the identity it is `IndexConfCost.Less`. -/
def IndexConfCost.LessRounded (fl : ℚ → ℚ) (c other : IndexConfCost) : Bool :=
  if c.TotalNumberOfIndexColumns = 0 then -- not initialized
    false
  else if other.TotalNumberOfIndexColumns = 0 then -- not initialized
    true
  else
    let cc := c.TotalWorkloadQueryCost
    let cOther := other.TotalWorkloadQueryCost
    if decide (|fl (cc - cOther)| < 10) ||
        (if max cc cOther = 0 then false
         else decide (fl (|fl (cc - cOther)| / max cc cOther) < fl (1 / 100))) then
      -- if they have the same cost, then the less columns, the better.
      decide (c.TotalNumberOfIndexColumns < other.TotalNumberOfIndexColumns)
    else
      decide (c.TotalWorkloadQueryCost < other.TotalWorkloadQueryCost)

/-! ## `Column` and `Index` -/

/-- A column (`type Column struct`): its schema, table and column names.  The
`workload` package adds a `ColumnType` pointer into the SQL parser; no function
embedded here reads it and the constructors leave it nil, so it is omitted. -/
structure Column where
  SchemaName : String
  TableName : String
  ColumnName : String
  deriving DecidableEq, Repr, Inhabited

/-- An index (`type Index struct`). -/
structure Index where
  SchemaName : String
  TableName : String
  IndexName : String
  Columns : List Column
  deriving DecidableEq, Repr

/-- The method `func (i Index) ColumnNames() []string` (`columnNames` in the
package `main` copy): the loop appends each column's name to `names`. -/
def Index.ColumnNames (i : Index) : List String :=
  i.Columns.foldl (fun names col => names ++ [col.ColumnName]) []

/-- The method `func (i Index) Key() string`:
`fmt.Sprintf("%v.%v(%v)", schema, table, strings.Join(names, ","))`. -/
def Index.Key (i : Index) : String :=
  i.SchemaName ++ "." ++ i.TableName ++ "(" ++ String.intercalate "," i.ColumnNames ++ ")"

/-- The loop of `PrefixContain`, run over the indexes `ks` of `j.Columns`: it
returns false at the first position where the column names differ and true
when it runs out.  `ic[k]` and `jc[k]` are slice accesses; the caller has
checked `len(ic) ≥ len(jc)`, so both are in range. -/
def Index.PrefixContain.loop (ic jc : List Column) : List Nat → Bool
  | [] => true
  | k :: ks =>
    if (ic.getD k default).ColumnName != (jc.getD k default).ColumnName then false
    else Index.PrefixContain.loop ic jc ks

/-- The method `func (i Index) PrefixContain(j Index) bool`: whether `j` is a
prefix of `i`. -/
def Index.PrefixContain (i j : Index) : Bool :=
  if i.SchemaName != j.SchemaName || i.TableName != j.TableName
      || decide (i.Columns.length < j.Columns.length) then
    false
  else
    Index.PrefixContain.loop i.Columns j.Columns (List.range j.Columns.length)

/-- The method `func (i Index) DDL() string`:
`fmt.Sprintf("CREATE INDEX %v ON %v.%v (%v)", name, schema, table, strings.Join(names, ", "))`. -/
def Index.DDL (i : Index) : String :=
  "CREATE INDEX " ++ i.IndexName ++ " ON " ++ i.SchemaName ++ "." ++ i.TableName ++ " ("
    ++ String.intercalate ", " i.ColumnNames ++ ")"

/-- The method `func (c Column) Key() string`: `fmt.Sprintf("%v.%v.%v", schema, table, column)`. -/
def Column.Key (c : Column) : String :=
  c.SchemaName ++ "." ++ c.TableName ++ "." ++ c.ColumnName

/-! ## Constructors -/

/-- Go's `strings.ToLower`, character by character.  The letters `A`..`Z` are
mapped to `a`..`z`; Go also lowers the non-ASCII letters through the Unicode
tables of its runtime, which are not reproduced here, so the model is exact on
strings whose letters are ASCII. -/
def ToLower (s : String) : String :=
  ⟨s.data.map Char.toLower⟩

/-- The function `func NewColumn(schemaName, tableName, columnName string) Column`. -/
def NewColumn (schemaName tableName columnName : String) : Column :=
  { SchemaName := ToLower schemaName, TableName := ToLower tableName,
    ColumnName := ToLower columnName }

/-- The function `func NewColumns(schemaName, tableName string, columnNames ...string) []Column`:
the loop appends one `NewColumn` per name. -/
def NewColumns (schemaName tableName : String) (columnNames : List String) : List Column :=
  columnNames.foldl (fun cols col => cols ++ [NewColumn schemaName tableName col]) []

/-- The function `func NewIndex(schemaName, tableName, indexName string, columns ...string) Index`. -/
def NewIndex (schemaName tableName indexName : String) (columns : List String) : Index :=
  { SchemaName := ToLower schemaName, TableName := ToLower tableName,
    IndexName := ToLower indexName, Columns := NewColumns schemaName tableName columns }

/-! ### The constructors over the rune mapping of the Go runtime

`strings.ToLower` maps every character of its argument through
`unicode.ToLower`, whose table belongs to the Go release.  In the definitions
that follow that mapping is the parameter `lower`; `ToLower`, `NewColumn`,
`NewColumns` and `NewIndex` above are their instances at `Char.toLower`, which
lowers the letters `A`..`Z` only. -/

/-- Go's `strings.ToLower`, with `unicode.ToLower` as `lower`. -/
def ToLowerWith (lower : Char → Char) (s : String) : String :=
  ⟨s.data.map lower⟩

/-- The function `NewColumn`, with `unicode.ToLower` as `lower`. -/
def NewColumnWith (lower : Char → Char) (schemaName tableName columnName : String) : Column :=
  { SchemaName := ToLowerWith lower schemaName, TableName := ToLowerWith lower tableName,
    ColumnName := ToLowerWith lower columnName }

/-- The function `NewColumns`, with `unicode.ToLower` as `lower`: the loop
appends one `NewColumn` per name. -/
def NewColumnsWith (lower : Char → Char) (schemaName tableName : String)
    (columnNames : List String) : List Column :=
  columnNames.foldl (fun cols col => cols ++ [NewColumnWith lower schemaName tableName col]) []

/-- The function `NewIndex`, with `unicode.ToLower` as `lower`. -/
def NewIndexWith (lower : Char → Char) (schemaName tableName indexName : String)
    (columns : List String) : Index :=
  { SchemaName := ToLowerWith lower schemaName, TableName := ToLowerWith lower tableName,
    IndexName := ToLowerWith lower indexName,
    Columns := NewColumnsWith lower schemaName tableName columns }

/-- Two texts differ at most in the case of letters `a`..`z`: they have the
same length and, position by position, the same character or a letter `a`..`z`
on one side and its upper-case letter on the other. -/
def SameUpToCase : List Char → List Char → Bool
  | [], [] => true
  | c :: cs, d :: ds =>
    (c == d || (decide (97 ≤ c.toNat ∧ c.toNat ≤ 122) && d == c.toUpper)
        || (decide (97 ≤ d.toNat ∧ d.toNat ≤ 122) && c == d.toUpper))
      && SameUpToCase cs ds
  | _, _ => false

/-- The mapping `unicode.ToLower` on Latin-1, for the examples: `A`..`Z` and
`À`..`Þ` without `×` are 32 below their lower-case letters; every other
character is left as it is. -/
def latin1ToLower (c : Char) : Char :=
  if (65 ≤ c.toNat ∧ c.toNat ≤ 90) ∨ (192 ≤ c.toNat ∧ c.toNat ≤ 222 ∧ c.toNat ≠ 215) then
    Char.ofNat (c.toNat + 32)
  else c

/-! ## `Plan` -/

set_option linter.dupNamespace false in
/-- The rows of an `EXPLAIN` result (`type Plan struct`). -/
structure Plan where
  Plan : List (List String)
  deriving DecidableEq, Repr

/-- How a call ends when it does not return a value: a slice access out of
range (a run-time panic), or an error `e` handed to `Must`. -/
inductive Failure (ε : Type) where
  | indexOutOfRange : Failure ε
  | error (e : ε) : Failure ε
  deriving DecidableEq, Repr

/-- The method `func (p Plan) IsExecuted() bool`: `len(p.Plan[0]) == 10`.  The
result is `none` when `p.Plan[0]` is out of range. -/
def Plan.IsExecuted (p : Workload.Plan) : Option Bool :=
  match p.Plan[0]? with
  | none => none
  | some row => some (row.length == 10)

/-- Modelled from the spec: `utils.Must`, of package `utils`, whose source is
not at hand.  The spec has a plan whose cost cannot be parsed end the
evaluation with an error that surfaces to the caller: `Must` does nothing on a
nil error and fails with the error otherwise. -/
def Must {ε : Type} (err : Option ε) : Except (Failure ε) Unit :=
  match err with
  | none => .ok ()
  | some e => .error (.error e)

/-- The method `func (p Plan) PlanCost() float64`.  `ParseFloat` stands for
`strconv.ParseFloat(·, 64)` of the Go library, which returns a value and an
error (`none` for nil). -/
def Plan.PlanCost {ε : Type} (ParseFloat : String → ℚ × Option ε) (p : Workload.Plan) :
    Except (Failure ε) ℚ :=
  match p.Plan[0]? with
  | none => .error .indexOutOfRange
  | some row =>
    match row[2]? with
    | none => .error .indexOutOfRange
    | some cell =>
      let (v, err) := ParseFloat cell
      match Must err with
      | .error f => .error f
      | .ok () => .ok v

/-! ## `SQL` -/

/-- The kinds of statement (`type SQLType int`). -/
inductive SQLType where
  | SQLTypeSelect
  | SQLTypeInsert
  | SQLTypeUpdate
  | SQLTypeOthers
  deriving DecidableEq, Repr

/-- A statement of the workload (`type SQL struct`); the `utils.Set[Column]` is
a list of columns. -/
structure SQL where
  Alias : String
  SchemaName : String
  Text : String
  Frequency : Int
  IndexableColumns : List Column
  Plans : List Plan
  deriving Repr

/-- Go's `unicode.IsSpace`: the Unicode `White_Space` characters. -/
def isSpace (c : Char) : Bool :=
  let n := c.toNat
  (9 ≤ n && n ≤ 13) || n == 0x20 || n == 0x85 || n == 0xA0 || n == 0x1680
    || (0x2000 ≤ n && n ≤ 0x200A) || n == 0x2028 || n == 0x2029 || n == 0x202F
    || n == 0x205F || n == 0x3000

/-- Go's `strings.TrimSpace`: the string without its leading and trailing
white space. -/
def TrimSpace (s : String) : String :=
  ⟨(s.data.dropWhile isSpace).rdropWhile isSpace⟩

/-- Go's `strings.HasPrefix`. -/
def HasPrefix (s pre : String) : Bool :=
  pre.data.isPrefixOf s.data

/-- The method `func (sql SQL) Type() SQLType`.  `len(text)` and `text[:6]`
count bytes in Go and characters here; the two agree whenever the first six
bytes are ASCII, and otherwise no keyword can match on either side. -/
def SQL.Type (sql : SQL) : SQLType :=
  let text := TrimSpace sql.Text
  if text.length < 6 then
    .SQLTypeOthers
  else
    let pre := ToLower ⟨text.data.take 6⟩
    if HasPrefix pre "select" then
      .SQLTypeSelect
    else if HasPrefix pre "insert" then
      .SQLTypeInsert
    else if HasPrefix pre "update" then
      .SQLTypeUpdate
    else
      .SQLTypeOthers

/-- The method `func (sql SQL) Key() string`. -/
def SQL.Key (sql : SQL) : String :=
  sql.Text

/-- The text begins with the letters of the lower-case word `kw`, each in
either letter case. -/
def BeginsWithAnyCase (kw text : List Char) : Bool :=
  match kw, text with
  | [], _ => true
  | _ :: _, [] => false
  | k :: ks, c :: cs => (c == k || c == k.toUpper) && BeginsWithAnyCase ks cs

/-- The white space characters, one by one: tab, line feed, vertical tab, form
feed, carriage return, space, next line, no-break space, and the space
separators and line and paragraph separators beyond Latin-1. -/
def whiteSpace : List Char :=
  ['\t', '\n', '\x0b', '\x0c', '\r', '\x20', '\u0085', '\u00a0', '\u1680', '\u2000', '\u2001',
   '\u2002', '\u2003', '\u2004', '\u2005', '\u2006', '\u2007', '\u2008', '\u2009', '\u200a',
   '\u2028', '\u2029', '\u202f', '\u205f', '\u3000']

/-! ## `TableSchema` and `WorkloadInfo` -/

/-- A table of the workload (`type TableSchema struct`). -/
structure TableSchema where
  SchemaName : String
  TableName : String
  Columns : List Column
  Indexes : List Index
  CreateStmtText : String
  deriving Repr

/-- The statistics file of a table (`type TableStats struct`). -/
structure TableStats where
  SchemaName : String
  TableName : String
  StatsFilePath : String
  deriving Repr

/-- Sample rows of a table (`type SampleRows struct`). -/
structure SampleRows where
  TableName : String
  deriving Repr

/-- A workload (`type WorkloadInfo struct`); each `utils.Set` is the list of
its elements. -/
structure WorkloadInfo where
  SQLs : List SQL
  TableSchemas : List TableSchema
  TableStats : List TableStats
  IndexableColumns : List Column
  SampleRows : List SampleRows
  deriving Repr

/-! ## The selection engine

The package `advisor` (`SelectIndexAAAlgo`, `EvaluateIndexConfCost`,
`Parameter`) and the package `optimizer` are not among the sources at hand;
only their tests are.  This section follows sections 4.3 to 4.6 of the
specification. -/

/-- Modelled from the spec: the configuration surface of section 6, which the
missing `advisor.Parameter` carries: `K`, the maximum width of a candidate
index, and the threshold of the exhaustive enumeration. -/
structure Parameter where
  MaximumIndexesToRecommend : Int
  MaximumColumnsPerIndex : Nat
  NaiveEnumerationThreshold : Nat
  deriving Repr

/-- Modelled from the spec: the what-if optimizer of section 4.3, of the
missing package `optimizer`, as the engine sees it.  By the ordering guarantee
("between `CreateHypoIndex(I)` and `DropHypoIndex(I)`, any `Explain` reflects
`I`'s presence"; "the N-th evaluation observes exactly the hypothetical indexes
created since the previous drop"), `Explain hypo text` is the plan, or the
error, that `Explain(text)` returns while exactly the indexes `hypo` are
registered. -/
structure WhatIfOptimizer (ε : Type) where
  Explain : List Index → String → Except ε Workload.Plan

/-- Modelled from the spec: the contribution of one statement in step 2 of
`EvaluateIndexConfCost` (section 4.5): `Explain(sql.text)`, `plan.PlanCost()`,
times `max(1, sql.Frequency)`. -/
def queryCost {ε : Type} (ParseFloat : String → ℚ × Option ε) (opt : WhatIfOptimizer ε)
    (conf : List Index) (sql : SQL) : Except (Failure ε) ℚ :=
  match opt.Explain conf sql.Text with
  | .error e => .error (.error e)
  | .ok plan =>
    match plan.PlanCost ParseFloat with
    | .error f => .error f
    | .ok cost => .ok (cost * max 1 (sql.Frequency : ℚ))

/-- Modelled from the spec: steps 2 and 3 of `EvaluateIndexConfCost` (section
4.5): the sum of the contributions of the statements of type SELECT; the first
failure ends the evaluation. -/
def totalQueryCost {ε : Type} (ParseFloat : String → ℚ × Option ε) (opt : WhatIfOptimizer ε)
    (conf : List Index) : List SQL → Except (Failure ε) ℚ
  | [] => .ok 0
  | sql :: rest =>
    if sql.Type = .SQLTypeSelect then
      match queryCost ParseFloat opt conf sql with
      | .error f => .error f
      | .ok c =>
        match totalQueryCost ParseFloat opt conf rest with
        | .error f => .error f
        | .ok total => .ok (c + total)
    else
      totalQueryCost ParseFloat opt conf rest

/-- Modelled from the spec: `EvaluateIndexConfCost(W, optimizer, conf)` of the
missing package `advisor` (section 4.5).  Steps 1 and 5, which register the
indexes of `conf` and drop them again, are the first argument of `Explain`. -/
def EvaluateIndexConfCost {ε : Type} (ParseFloat : String → ℚ × Option ε) (W : WorkloadInfo)
    (opt : WhatIfOptimizer ε) (conf : List Index) : Except (Failure ε) IndexConfCost :=
  match totalQueryCost ParseFloat opt conf W.SQLs with
  | .error f => .error f
  | .ok total =>
    .ok { TotalWorkloadQueryCost := total,
          TotalNumberOfIndexColumns := ((conf.map fun I => (I.Columns.length : Int)).sum) }

/-- Modelled from the spec: the name of a candidate index.  The spec leaves it
open (the name is no part of an index's identity); the tests of the missing
`SelectIndexAAAlgo` name their expected indexes `schema_table_c1_..._cn`. -/
def candidateName (schemaName tableName : String) (cols : List Column) : String :=
  schemaName ++ "_" ++ tableName ++ "_" ++ String.intercalate "_" (cols.map Column.ColumnName)

/-- Modelled from the spec: "prefix-contained in a pre-existing index"
(sections 4.4 and 8): some index of some table of the workload prefix-contains
`I`. -/
def coveredByExisting (W : WorkloadInfo) (I : Index) : Bool :=
  W.TableSchemas.any fun t => t.Indexes.any fun E => E.PrefixContain I

/-- Modelled from the spec: the candidate set C₁ of section 4.4: one
single-column index per indexable column, without those that are a prefix of
an existing index. -/
def singleColumnCandidates (W : WorkloadInfo) : List Index :=
  (W.IndexableColumns.map fun c =>
      ({ SchemaName := c.SchemaName, TableName := c.TableName,
         IndexName := candidateName c.SchemaName c.TableName [c], Columns := [c] } : Index)).filter
    fun I => !coveredByExisting W I

/-- Membership of a column in a column list, columns being identified by
their `Key` (section 3). -/
def columnIn (c : Column) (cols : List Column) : Bool :=
  cols.any fun d => d.Key == c.Key

/-- Modelled from the spec: the extensions of one index `I` (section 4.4):
`I ⊕ c` for every column `c` on the same table, not already in `I`, in the
indexable set of a statement that also references all of `I`'s columns. -/
def extensionsOf (W : WorkloadInfo) (I : Index) : List Index :=
  W.SQLs.flatMap fun sql =>
    if I.Columns.all fun d => columnIn d sql.IndexableColumns then
      (sql.IndexableColumns.filter fun c =>
          c.SchemaName == I.SchemaName && c.TableName == I.TableName
            && !columnIn c I.Columns).map fun c =>
        ({ SchemaName := I.SchemaName, TableName := I.TableName,
           IndexName := candidateName I.SchemaName I.TableName (I.Columns ++ [c]),
           Columns := I.Columns ++ [c] } : Index)
    else
      []

/-- "Deduplicate by `Key`": the first index of each key is kept. -/
def dedupByKey : List Index → List Index
  | [] => []
  | I :: rest => I :: (dedupByKey rest).filter fun J => J.Key != I.Key

/-- Modelled from the spec: the candidate set of the next width (section 4.4):
the extensions of the selected indexes, deduplicated by `Key`, without those
prefix-contained in an existing index. -/
def multiColumnCandidates (W : WorkloadInfo) (selected : List Index) : List Index :=
  (dedupByKey (selected.flatMap (extensionsOf W))).filter fun I => !coveredByExisting W I

/-- Iteration order of a set of indexes: sorted by `Key` (sections 4.1, 9). -/
def sortByKey (l : List Index) : List Index :=
  l.insertionSort fun a b => a.Key ≤ b.Key

/-- Modelled from the spec: "return the one with least `IndexConfCost`": the
configurations are evaluated in order and one replaces the best so far when
its cost is `Less`. -/
def pickBest {E : Type} (eval : List Index → Except E IndexConfCost) :
    List (List Index) → List Index × IndexConfCost → Except E (List Index × IndexConfCost)
  | [], best => .ok best
  | conf :: rest, best =>
    match eval conf with
    | .error e => .error e
    | .ok cost =>
      if cost.Less best.2 then pickBest eval rest (conf, cost) else pickBest eval rest best

/-- Modelled from the spec: "every subset of `C` of size `≤ K`" (section 4.6),
by increasing size and, within a size, in lexicographic order of the positions
in `C`, so that among equal costs the smaller keys win. -/
def subsetsUpTo (K : Nat) (C : List Index) : List (List Index) :=
  (List.range (K + 1)).flatMap fun k => (C.sublistsLen k).reverse

/-- Modelled from the spec: one greedy step (section 4.6): "try every
remaining candidate, pick the one that produces the smallest `IndexConfCost`
when added to the current partial configuration".  The second component starts
as the cost of the current configuration; the first stays `none` exactly when
`Less` fails for every candidate. -/
def bestAddition {E : Type} (eval : List Index → Except E IndexConfCost) (conf : List Index) :
    List Index → Option Index × IndexConfCost → Except E (Option Index × IndexConfCost)
  | [], best => .ok best
  | c :: rest, best =>
    match eval (conf ++ [c]) with
    | .error e => .error e
    | .ok cost =>
      if cost.Less best.2 then bestAddition eval conf rest (some c, cost)
      else bestAddition eval conf rest best

/-- Modelled from the spec: the greedy loop of `enumerate-greedy` (section
4.6): "greedily add one index at a time ... Stop when size = `K` or no
candidate improves cost".  The first argument bounds the number of rounds;
every round removes a candidate, so the number of candidates is enough. -/
def greedyExtend {E : Type} (eval : List Index → Except E IndexConfCost) (K : Nat) :
    Nat → List Index → IndexConfCost → List Index → Except E (List Index)
  | 0, conf, _, _ => .ok conf
  | rounds + 1, conf, cost, remaining =>
    if conf.length = K then
      .ok conf
    else
      match bestAddition eval conf remaining (none, cost) with
      | .error e => .error e
      | .ok (none, _) => .ok conf
      | .ok (some c, cost2) =>
        greedyExtend eval K rounds (conf ++ [c]) cost2
          (remaining.filter fun r => r.Key != c.Key)

/-- The cost of no configuration yet: the "uninitialized" sentinel of `Less`. -/
def uninitializedCost : IndexConfCost :=
  { TotalWorkloadQueryCost := 0, TotalNumberOfIndexColumns := 0 }

/-- Modelled from the spec: `enumerate-greedy(C, K)` (section 4.6), which
returns "a configuration with `≤ K` indexes" (step 2 of the top-level loop).
The seed of the greedy branch is "the best size-`naiveThreshold` subset"; as
the result has at most `K` indexes, so has the seed, and its size is the
smaller of the threshold and `K`. -/
def enumerateGreedy {E : Type} (eval : List Index → Except E IndexConfCost)
    (naiveThreshold K : Nat) (C : List Index) : Except E (List Index) :=
  let sorted := sortByKey C
  if sorted.length ≤ naiveThreshold + K then
    match pickBest eval (subsetsUpTo K sorted) ([], uninitializedCost) with
    | .error e => .error e
    | .ok best => .ok best.1
  else
    match pickBest eval (sorted.sublistsLen (min naiveThreshold K)).reverse
        ([], uninitializedCost) with
    | .error e => .error e
    | .ok seed =>
      greedyExtend eval K sorted.length seed.1 seed.2
        (sorted.filter fun c => !seed.1.any fun s => s.Key == c.Key)

/-- Modelled from the spec: the top-level loop of section 4.6 over the widths
that are left (the first argument), from the candidate set of the current
width and the best configuration so far. -/
def widen {E : Type} (eval : List Index → Except E IndexConfCost) (W : WorkloadInfo)
    (naiveThreshold K : Nat) :
    Nat → List Index → List Index × IndexConfCost → Except E (List Index × IndexConfCost)
  | 0, _, best => .ok best
  | widths + 1, C, best =>
    if C.isEmpty then
      .ok best
    else
      match enumerateGreedy eval naiveThreshold K C with
      | .error e => .error e
      | .ok conf =>
        match eval conf with
        | .error e => .error e
        | .ok cost =>
          widen eval W naiveThreshold K widths (multiColumnCandidates W conf)
            (if cost.Less best.2 then (conf, cost) else best)

/-- Modelled from the spec: "Minimality" (section 4.6): each index of the best
configuration, in key order, is dropped when the configuration without it has
a cost that is `Less`. -/
def dropRedundant {E : Type} (eval : List Index → Except E IndexConfCost) :
    List Index → List Index → IndexConfCost → Except E (List Index)
  | [], conf, _ => .ok conf
  | I :: rest, conf, cost =>
    match eval (conf.filter fun J => J.Key != I.Key) with
    | .error e => .error e
    | .ok cost2 =>
      if cost2.Less cost then dropRedundant eval rest (conf.filter fun J => J.Key != I.Key) cost2
      else dropRedundant eval rest conf cost

/-- How the selection engine fails (section 7): a configuration error, or a
failure of a cost evaluation. -/
inductive EngineError (ε : Type) where
  | configuration : EngineError ε
  | evaluation (f : Failure ε) : EngineError ε
  deriving DecidableEq, Repr

/-- Modelled from the spec: `SelectIndexAAAlgo(workload, parameter, optimizer)`
of the missing package `advisor` (section 4.6).  `K ≤ 0` is rejected; the
result is the best configuration over the widths, made minimal. -/
def SelectIndexAAAlgo {ε : Type} (ParseFloat : String → ℚ × Option ε) (W : WorkloadInfo)
    (parameter : Parameter) (opt : WhatIfOptimizer ε) : Except (EngineError ε) (List Index) :=
  if parameter.MaximumIndexesToRecommend ≤ 0 then
    .error .configuration
  else
    match widen (EvaluateIndexConfCost ParseFloat W opt) W parameter.NaiveEnumerationThreshold
        parameter.MaximumIndexesToRecommend.toNat parameter.MaximumColumnsPerIndex
        (singleColumnCandidates W) ([], uninitializedCost) with
    | .error f => .error (.evaluation f)
    | .ok best =>
      match dropRedundant (EvaluateIndexConfCost ParseFloat W opt) (sortByKey best.1)
          best.1 best.2 with
      | .error f => .error (.evaluation f)
      | .ok conf => .ok conf

/-! ### A workload with four indexable columns -/

/-- The column `test.t.<name>`. -/
def exampleColumn (name : String) : Column :=
  { SchemaName := "test", TableName := "t", ColumnName := name }

/-- Table `test.t(a, b, c, d)` without indexes and two statements, one with the
indexable columns `a`, `c` and one with `b`, `d`. -/
def exampleWorkload : WorkloadInfo :=
  { SQLs := [
      { Alias := "", SchemaName := "test", Text := "select * from t where a = 1 and c = 1",
        Frequency := 1, IndexableColumns := [exampleColumn "a", exampleColumn "c"],
        Plans := [] },
      { Alias := "", SchemaName := "test", Text := "select * from t where b = 1 and d = 1",
        Frequency := 1, IndexableColumns := [exampleColumn "b", exampleColumn "d"],
        Plans := [] }],
    TableSchemas := [
      { SchemaName := "test", TableName := "t",
        Columns := [exampleColumn "a", exampleColumn "b", exampleColumn "c", exampleColumn "d"],
        Indexes := [], CreateStmtText := "create table t (a int, b int, c int, d int)" }],
    TableStats := [],
    IndexableColumns :=
      [exampleColumn "a", exampleColumn "b", exampleColumn "c", exampleColumn "d"],
    SampleRows := [] }

/-- Some hypothetical index has the column `name` as its first column. -/
def exampleLeads (name : String) (hypo : List Index) : Bool :=
  hypo.any fun I => (I.Columns.head?.map Column.ColumnName) == some name

/-- An optimizer for `exampleWorkload`: the first statement costs 10 with an
index that starts with `a` and 1000 without, the second one 10 with an index
that starts with `b` and 1000 without. -/
def exampleOptimizer : WhatIfOptimizer String :=
  { Explain := fun hypo text =>
      if text = "select * from t where a = 1 and c = 1" then
        .ok ⟨[["IndexLookUp_7", "10.00", if exampleLeads "a" hypo then "10" else "1000"]]⟩
      else if text = "select * from t where b = 1 and d = 1" then
        .ok ⟨[["IndexLookUp_7", "10.00", if exampleLeads "b" hypo then "10" else "1000"]]⟩
      else
        .error "unknown statement" }

/-- A parser of the two costs that `exampleOptimizer` writes. -/
def exampleParseFloat (s : String) : ℚ × Option String :=
  if s = "10" then (10, none)
  else if s = "1000" then (1000, none)
  else (0, some "invalid syntax")

/-! ### A table with an existing index -/

/-- The table `t(a int, b int, c int, key(a))` of the tests of
`SelectIndexAAAlgo`, with the statements `a = 1`, `a = 2` and `b = 1`. -/
def keyedWorkload : WorkloadInfo :=
  { SQLs := [
      { Alias := "", SchemaName := "test", Text := "select * from t where a = 1",
        Frequency := 1, IndexableColumns := [exampleColumn "a"], Plans := [] },
      { Alias := "", SchemaName := "test", Text := "select * from t where a = 2",
        Frequency := 1, IndexableColumns := [exampleColumn "a"], Plans := [] },
      { Alias := "", SchemaName := "test", Text := "select * from t where b = 1",
        Frequency := 1, IndexableColumns := [exampleColumn "b"], Plans := [] }],
    TableSchemas := [
      { SchemaName := "test", TableName := "t",
        Columns := [exampleColumn "a", exampleColumn "b", exampleColumn "c"],
        Indexes := [{ SchemaName := "test", TableName := "t", IndexName := "a",
                      Columns := [exampleColumn "a"] }],
        CreateStmtText := "create table t (a int, b int, c int, key(a))" }],
    TableStats := [],
    IndexableColumns := [exampleColumn "a", exampleColumn "b"],
    SampleRows := [] }

/-- An optimizer for `keyedWorkload`: the statements on `a` use the existing
index and cost 10; the statement on `b` costs 10 with a hypothetical index that
starts with `b` and 1000 without. -/
def keyedOptimizer : WhatIfOptimizer String :=
  { Explain := fun hypo text =>
      if text = "select * from t where b = 1" then
        .ok ⟨[["IndexLookUp_7", "10.00", if exampleLeads "b" hypo then "10" else "1000"]]⟩
      else
        .ok ⟨[["IndexLookUp_7", "10.00", "10"]]⟩ }

/-! ## The test helper `newIndex4Test` -/

/-- Go's `strings.Split(s, sep)` for a separator `sep` of one character. -/
def Split (s : String) (sep : Char) : List String :=
  (s.data.splitOn sep).map String.mk

/-- The function `func newIndex4Test(key string) wk.Index` of the tests of the
selection engine.  The result is `none` when `tmp[1]` is out of range or
`tmp[1][:len(tmp[1])-1]` is taken of an empty string. -/
def newIndex4Test (key : String) : Option Index :=
  let tmp := Split key '.'
  match tmp[0]?, tmp[1]? with
  | some schemaName, some rest =>
    let tmp2 := Split rest '('
    match tmp2[0]?, tmp2[1]? with
    | some tableName, some tail =>
      if tail.length = 0 then
        none
      else
        let cols : String := ⟨tail.data.dropLast⟩
        let colNames := Split cols ','
        some (NewIndex schemaName tableName
          (schemaName ++ "_" ++ tableName ++ "_" ++ String.intercalate "_" colNames) colNames)
    | _, _ => none
  | _, _ => none

/-! ## `WorkloadInfo.AllSchemaNames` -/

/-- The method `func (w WorkloadInfo) AllSchemaNames() []string`, over the list
that `w.TableSchemas.ToList()` returns.  The state of the loop is the key set
of the map `x` and the slice `result`. -/
def WorkloadInfo.AllSchemaNames (w : WorkloadInfo) : List String :=
  (w.TableSchemas.foldl
    (fun (st : List String × List String) t =>
      if t.SchemaName ∈ st.1 then st
      else (t.SchemaName :: st.1, st.2 ++ [t.SchemaName]))
    ([], [])).2

/-- Two query costs are close: they differ by less than 10, or by less than 1%
of the larger one (the quotient being defined, i.e. the larger one non-zero). -/
def CloseCosts (x y : ℚ) : Prop :=
  |x - y| < 10 ∨ (max x y ≠ 0 ∧ |x - y| / max x y < 1 / 100)

instance (x y : ℚ) : Decidable (CloseCosts x y) := by
  unfold CloseCosts
  infer_instance

/-! ## Properties of `IndexConfCost.Less` -/

/-- The closeness test written in `Less` decides `CloseCosts`. -/
theorem closeTest_iff (x y : ℚ) :
    (decide (|x - y| < 10) || quotLt |x - y| (max x y) (1 / 100)) = true ↔ CloseCosts x y := by
  unfold quotLt CloseCosts
  by_cases h : max x y = 0 <;> simp [h]

/-- `Less` unfolded into its four branches. -/
theorem Less_iff (a b : IndexConfCost) :
    a.Less b = true ↔
      a.TotalNumberOfIndexColumns ≠ 0 ∧
        (b.TotalNumberOfIndexColumns = 0 ∨
          (CloseCosts a.TotalWorkloadQueryCost b.TotalWorkloadQueryCost ∧
            a.TotalNumberOfIndexColumns < b.TotalNumberOfIndexColumns) ∨
          (¬ CloseCosts a.TotalWorkloadQueryCost b.TotalWorkloadQueryCost ∧
            a.TotalWorkloadQueryCost < b.TotalWorkloadQueryCost)) := by
  unfold IndexConfCost.Less
  by_cases ha : a.TotalNumberOfIndexColumns = 0
  · simp [ha]
  by_cases hb : b.TotalNumberOfIndexColumns = 0
  · simp [ha, hb]
  by_cases hc : CloseCosts a.TotalWorkloadQueryCost b.TotalWorkloadQueryCost
  · have hc2 := (closeTest_iff _ _).2 hc
    simp only [ha, hb, if_false]
    rw [if_pos hc2]
    simp [hc, ha, hb]
  · have hc2 : ¬ _ := fun h => hc ((closeTest_iff _ _).1 h)
    simp only [ha, hb, if_false]
    rw [if_neg hc2]
    simp [hc, ha, hb]

theorem CloseCosts_comm (x y : ℚ) : CloseCosts x y ↔ CloseCosts y x := by
  unfold CloseCosts
  rw [abs_sub_comm x y, max_comm x y]

theorem CloseCosts_self (x : ℚ) : CloseCosts x x := by
  left; simp

/-- What "not close" gives for an ordered pair: the larger cost is
non-negative, the gap is at least 10 and at least 1% of the larger cost. -/
theorem not_close_of_lt {x y : ℚ} (hxy : x < y) (h : ¬ CloseCosts x y) :
    10 ≤ y - x ∧ y / 100 ≤ y - x ∧ 0 ≤ y := by
  unfold CloseCosts at h
  push_neg at h
  obtain ⟨h1, h2⟩ := h
  have habs : |x - y| = y - x := by
    rw [abs_sub_comm]; exact abs_of_pos (by linarith)
  have hmax : max x y = y := max_eq_right hxy.le
  rw [habs] at h1 h2
  rw [hmax] at h2
  by_cases hy : y = 0
  · subst hy; exact ⟨h1, by linarith, le_refl 0⟩
  have h3 := h2 hy
  rcases lt_or_gt_of_ne hy with hneg | hpos
  · exfalso
    have : (y - x) / y < 0 := div_neg_of_pos_of_neg (by linarith) hneg
    linarith
  · rw [le_div_iff₀ hpos] at h3
    exact ⟨h1, by linarith, hpos.le⟩

/-- Conversely, an ordered pair with such a gap is not close. -/
theorem not_close_intro {x y : ℚ} (hxy : x < y) (h10 : 10 ≤ y - x) (hrel : y / 100 ≤ y - x)
    (hy : 0 ≤ y) : ¬ CloseCosts x y := by
  unfold CloseCosts
  have habs : |x - y| = y - x := by
    rw [abs_sub_comm]; exact abs_of_pos (by linarith)
  have hmax : max x y = y := max_eq_right hxy.le
  rw [habs, hmax]
  push_neg
  refine ⟨h10, fun hy0 => ?_⟩
  have hpos : 0 < y := lt_of_le_of_ne hy (Ne.symm hy0)
  rw [le_div_iff₀ hpos]
  linarith

/-- Widening a gap upwards keeps a pair not close. -/
theorem not_close_widen_up {x y z : ℚ} (hxy : x < y) (hyz : y ≤ z) (h : ¬ CloseCosts x y) :
    ¬ CloseCosts x z := by
  obtain ⟨h10, hrel, hy⟩ := not_close_of_lt hxy h
  exact not_close_intro (by linarith) (by linarith) (by linarith) (by linarith)

/-- Widening a gap downwards keeps a pair not close. -/
theorem not_close_widen_down {w x y : ℚ} (hwx : w ≤ x) (hxy : x < y) (h : ¬ CloseCosts x y) :
    ¬ CloseCosts w y := by
  obtain ⟨h10, hrel, hy⟩ := not_close_of_lt hxy h
  exact not_close_intro (by linarith) (by linarith) (by linarith) hy

/-! ### C1: transitivity -/

/-- C1, counterexample: `Less` is not transitive.  With costs 1018, 1009, 1000
and column counts 1, 2, 3 the first two pairs are close (they differ by 9) and
are ordered by column count, while the outer pair differs by 18, which is
neither below 10 nor below 1% of 1018, and is ordered by cost the other way. -/
theorem Less_not_transitive :
    IndexConfCost.Less ⟨1018, 1⟩ ⟨1009, 2⟩ = true ∧
      IndexConfCost.Less ⟨1009, 2⟩ ⟨1000, 3⟩ = true ∧
      IndexConfCost.Less ⟨1018, 1⟩ ⟨1000, 3⟩ = false := by
  refine ⟨?_, ?_, ?_⟩ <;> norm_num [IndexConfCost.Less, quotLt, abs_of_nonneg]

/-- C1, amended: `Less` is transitive along a chain `a`, `b`, `c` whenever the
outer pair `a`, `c` is close exactly when both inner pairs are close (or `c` is
uninitialized): if `a.Less(b)` and `b.Less(c)` then `a.Less(c)`. -/
theorem Less_trans_of_close_agree (a b c : IndexConfCost)
    (hab : a.Less b = true) (hbc : b.Less c = true)
    (h : c.TotalNumberOfIndexColumns = 0 ∨
      (CloseCosts a.TotalWorkloadQueryCost c.TotalWorkloadQueryCost ↔
        CloseCosts a.TotalWorkloadQueryCost b.TotalWorkloadQueryCost ∧
          CloseCosts b.TotalWorkloadQueryCost c.TotalWorkloadQueryCost)) :
    a.Less c = true := by
  rw [Less_iff] at hab hbc ⊢
  obtain ⟨ha, hab⟩ := hab
  obtain ⟨hb, hbc⟩ := hbc
  refine ⟨ha, ?_⟩
  rcases h with h | h
  · exact Or.inl h
  by_cases hc0 : c.TotalNumberOfIndexColumns = 0
  · exact Or.inl hc0
  right
  have hab := hab.resolve_left hb
  have hbc := hbc.resolve_left hc0
  rcases hab with ⟨cab, lab⟩ | ⟨nab, lab⟩
  · rcases hbc with ⟨cbc, lbc⟩ | ⟨nbc, lbc⟩
    · exact Or.inl ⟨h.2 ⟨cab, cbc⟩, lt_trans lab lbc⟩
    · have nac : ¬ CloseCosts a.TotalWorkloadQueryCost c.TotalWorkloadQueryCost :=
        fun hac => nbc (h.1 hac).2
      refine Or.inr ⟨nac, ?_⟩
      by_contra hle
      push_neg at hle
      exact not_close_widen_up lbc hle nbc ((CloseCosts_comm _ _).1 cab)
  · have nac : ¬ CloseCosts a.TotalWorkloadQueryCost c.TotalWorkloadQueryCost :=
      fun hac => nab (h.1 hac).1
    refine Or.inr ⟨nac, ?_⟩
    rcases hbc with ⟨cbc, _⟩ | ⟨_, lbc⟩
    · by_contra hle
      push_neg at hle
      exact not_close_widen_down hle lab nab ((CloseCosts_comm _ _).1 cbc)
    · exact lt_trans lab lbc

/-- C1, amended, at costs 100, 200, 300 with one column each: no pair is
close and the chain is ordered by cost. -/
theorem Less_trans_of_close_agree_witness :
    IndexConfCost.Less ⟨100, 1⟩ ⟨200, 1⟩ = true ∧
      IndexConfCost.Less ⟨200, 1⟩ ⟨300, 1⟩ = true ∧
      IndexConfCost.Less ⟨100, 1⟩ ⟨300, 1⟩ = true :=
  have hab : IndexConfCost.Less ⟨100, 1⟩ ⟨200, 1⟩ = true := by
    norm_num [IndexConfCost.Less, quotLt, abs_of_nonneg]
  have hbc : IndexConfCost.Less ⟨200, 1⟩ ⟨300, 1⟩ = true := by
    norm_num [IndexConfCost.Less, quotLt, abs_of_nonneg]
  ⟨hab, hbc, Less_trans_of_close_agree ⟨100, 1⟩ ⟨200, 1⟩ ⟨300, 1⟩ hab hbc
    (Or.inr (by norm_num [CloseCosts, abs_of_nonneg]))⟩

/-! ### C2: irreflexivity and asymmetry -/

/-- C2: `Less` is irreflexive and asymmetric: `a.Less(a)` is false for every
cost `a`, and `a.Less(b)` and `b.Less(a)` never both hold. -/
theorem Less_irrefl_asymm :
    (∀ a : IndexConfCost, a.Less a = false) ∧
      (∀ a b : IndexConfCost, ¬ (a.Less b = true ∧ b.Less a = true)) := by
  constructor
  · intro a
    rw [← Bool.not_eq_true, Less_iff]
    rintro ⟨ha, h | ⟨_, h⟩ | ⟨h, _⟩⟩
    · exact ha h
    · exact lt_irrefl _ h
    · exact h (CloseCosts_self _)
  · rintro a b ⟨hab, hba⟩
    rw [Less_iff] at hab hba
    obtain ⟨ha, hab⟩ := hab
    obtain ⟨hb, hba⟩ := hba
    have hab := hab.resolve_left hb
    have hba := hba.resolve_left ha
    rcases hab with ⟨cab, lab⟩ | ⟨nab, lab⟩
    · rcases hba with ⟨_, lba⟩ | ⟨nba, _⟩
      · exact lt_asymm lab lba
      · exact nba ((CloseCosts_comm _ _).1 cab)
    · rcases hba with ⟨cba, _⟩ | ⟨_, lba⟩
      · exact nab ((CloseCosts_comm _ _).1 cba)
      · exact lt_asymm lab lba

/-! ### The rounding of `float64` -/

/-- With the identity for the rounding, `LessRounded` is `Less`. -/
theorem LessRounded_id (a b : IndexConfCost) : a.LessRounded id b = a.Less b := rfl

/-- The result of `roundHalfEven` is the integer within one half of `q`, when
there is one. -/
theorem roundHalfEven_eq_of_near (q : ℚ) (n : Int) (h : |q - n| < 1 / 2) :
    roundHalfEven q = n := by
  have h1 := abs_lt.mp h
  have hf1 : ((⌊q⌋ : Int) : ℚ) ≤ q := Int.floor_le q
  have hf2 : q < ((⌊q⌋ : Int) : ℚ) + 1 := Int.lt_floor_add_one q
  unfold roundHalfEven
  split_ifs with c1 c2 c3
  · have a : ((⌊q⌋ : Int) : ℚ) < (n : ℚ) + 1 := by linarith
    have b : (n : ℚ) < ((⌊q⌋ : Int) : ℚ) + 1 := by linarith
    have a1 : ⌊q⌋ < n + 1 := by exact_mod_cast a
    have b1 : n < ⌊q⌋ + 1 := by exact_mod_cast b
    omega
  · have a : ((⌊q⌋ : Int) : ℚ) < (n : ℚ) := by linarith
    have b : (n : ℚ) < ((⌊q⌋ : Int) : ℚ) + 2 := by linarith
    have a1 : ⌊q⌋ < n := by exact_mod_cast a
    have b1 : n < ⌊q⌋ + 2 := by exact_mod_cast b
    omega
  all_goals
    exfalso
    have e : q - ((⌊q⌋ : Int) : ℚ) = 1 / 2 := le_antisymm (not_lt.mp c2) (not_lt.mp c1)
    have a : ((⌊q⌋ : Int) : ℚ) < (n : ℚ) := by linarith
    have b : (n : ℚ) < ((⌊q⌋ : Int) : ℚ) + 1 := by linarith
    have a1 : ⌊q⌋ < n := by exact_mod_cast a
    have b1 : n < ⌊q⌋ + 1 := by exact_mod_cast b
    omega

/-- A certificate for a value of `roundFloat64`: the binary exponent `e` of `q`
and the integer `n` within one half of `q / 2 ^ (e - 52)`. -/
theorem roundFloat64_eq_of_near (q : ℚ) (e n : Int) (hq : q ≠ 0)
    (hlo : (2 : ℚ) ^ e ≤ |q|) (hhi : |q| < (2 : ℚ) ^ (e + 1)) (he : -1022 ≤ e)
    (hn : |q / 2 ^ (e - 52) - n| < 1 / 2) :
    roundFloat64 q = n * 2 ^ (e - 52) := by
  have hpos : (0 : ℚ) < |q| := abs_pos.mpr hq
  have hlog : Int.log 2 |q| = e := by
    have a : e ≤ Int.log 2 |q| :=
      (Int.zpow_le_iff_le_log (by norm_num) hpos).mp (by exact_mod_cast hlo)
    have b : Int.log 2 |q| < e + 1 :=
      (Int.lt_zpow_iff_log_lt (by norm_num) hpos).mp (by exact_mod_cast hhi)
    omega
  unfold roundFloat64
  rw [if_neg hq, hlog, max_eq_left he, roundHalfEven_eq_of_near _ n hn]

/-- The result of `roundHalfEven` is within one half of `q`. -/
theorem roundHalfEven_sub_le (q : ℚ) : |(roundHalfEven q : ℚ) - q| ≤ 1 / 2 := by
  have hf1 : ((⌊q⌋ : Int) : ℚ) ≤ q := Int.floor_le q
  have hf2 : q < ((⌊q⌋ : Int) : ℚ) + 1 := Int.lt_floor_add_one q
  unfold roundHalfEven
  split_ifs with c1 c2 c3 <;> push_cast <;> rw [abs_le] <;> constructor <;> linarith

theorem roundHalfEven_ge_of_half {q : ℚ} {N : Int} (hN : N % 2 = 0)
    (h : (N : ℚ) - 1 / 2 ≤ q) : N ≤ roundHalfEven q := by
  have hf : N - 1 ≤ ⌊q⌋ := Int.le_floor.mpr (by push_cast; linarith)
  unfold roundHalfEven
  split_ifs with c1 c2 c3
  · have a : (N : ℚ) < ((⌊q⌋ : Int) : ℚ) + 1 := by linarith
    have a1 : N < ⌊q⌋ + 1 := by exact_mod_cast a
    omega
  · omega
  · omega
  · omega

theorem roundHalfEven_le_of_half {q : ℚ} {N : Int} (hN : N % 2 = 0)
    (h : q ≤ -(N : ℚ) + 1 / 2) : roundHalfEven q ≤ -N := by
  have hf1 : ((⌊q⌋ : Int) : ℚ) ≤ q := Int.floor_le q
  have hf : ⌊q⌋ ≤ -N := by
    have a : ((⌊q⌋ : Int) : ℚ) < -(N : ℚ) + 1 := by linarith
    have a1 : ⌊q⌋ < -N + 1 := by exact_mod_cast a
    omega
  unfold roundHalfEven
  split_ifs with c1 c2 c3
  · omega
  · have a : ((⌊q⌋ : Int) : ℚ) < -(N : ℚ) := by linarith
    have a1 : ⌊q⌋ < -N := by exact_mod_cast a
    omega
  · omega
  · omega

/-- A number at least `N - 1/2` in absolute value, `N` even, is rounded to an
integer at least `N` in absolute value: the tie goes to `N`. -/
theorem roundHalfEven_abs_ge {q : ℚ} {N : Int} (hN : N % 2 = 0) (h : (N : ℚ) - 1 / 2 ≤ |q|) :
    (N : ℚ) ≤ |(roundHalfEven q : ℚ)| := by
  rcases le_abs.mp h with h1 | h1
  · have := roundHalfEven_ge_of_half hN h1
    have a : (N : ℚ) ≤ (roundHalfEven q : ℚ) := by exact_mod_cast this
    exact le_trans a (le_abs_self _)
  · have := roundHalfEven_le_of_half hN (q := q) (by linarith)
    have a : (roundHalfEven q : ℚ) ≤ -(N : ℚ) := by exact_mod_cast this
    exact le_trans (by linarith) (neg_le_abs _)

theorem roundFloat64_abs_lt_ten_of {d : ℚ} (h : |d| < 10 - 1 / 2 ^ 50) :
    |roundFloat64 d| < 10 := by
  unfold roundFloat64
  by_cases h0 : d = 0
  · rw [if_pos h0]; norm_num
  rw [if_neg h0]
  have hpos : (0 : ℚ) < |d| := abs_pos.mpr h0
  have hlog : Int.log 2 |d| < 4 :=
    (Int.lt_zpow_iff_log_lt (by norm_num) hpos).mp (by push_cast; norm_num; linarith)
  have hE : max (Int.log 2 |d|) (-1022) - 52 ≤ -49 := by
    have := max_le (Int.lt_add_one_iff.mp hlog) (by norm_num : (-1022 : Int) ≤ 3)
    omega
  generalize max (Int.log 2 |d|) (-1022) - 52 = k at hE
  have hu : (0 : ℚ) < 2 ^ k := zpow_pos (by norm_num) k
  have hu2 : (2 : ℚ) ^ k ≤ 2 ^ (-49 : Int) := zpow_le_zpow_right₀ (by norm_num) hE
  have hu3 : (2 : ℚ) ^ (-49 : Int) = 1 / 2 ^ 49 := by norm_num [zpow_neg]
  have hr := roundHalfEven_sub_le (d / 2 ^ k)
  have hR : |(roundHalfEven (d / 2 ^ k) : ℚ)| ≤ |d| / 2 ^ k + 1 / 2 := by
    have := abs_sub_abs_le_abs_sub (roundHalfEven (d / 2 ^ k) : ℚ) (d / 2 ^ k)
    rw [abs_div, abs_of_pos hu] at this
    linarith
  rw [abs_mul, abs_of_pos hu]
  have key : (|d| / 2 ^ k + 1 / 2) * 2 ^ k < 10 := by
    rw [add_mul, div_mul_cancel₀ _ (ne_of_gt hu)]
    have : (2 : ℚ) ^ k ≤ 1 / 2 ^ 49 := hu3 ▸ hu2
    have e : (1 : ℚ) / 2 ^ 50 = 1 / 2 * (1 / 2 ^ 49) := by norm_num
    nlinarith
  calc |(roundHalfEven (d / 2 ^ k) : ℚ)| * 2 ^ k
      ≤ (|d| / 2 ^ k + 1 / 2) * 2 ^ k := mul_le_mul_of_nonneg_right hR (le_of_lt hu)
    _ < 10 := key

theorem roundFloat64_abs_ge_ten_of {d : ℚ} (h : 10 - 1 / 2 ^ 50 ≤ |d|) :
    10 ≤ |roundFloat64 d| := by
  have h8 : (8 : ℚ) ≤ |d| := by
    have : (1 : ℚ) / 2 ^ 50 ≤ 2 := by norm_num
    linarith
  have hpos : (0 : ℚ) < |d| := by linarith
  have h0 : d ≠ 0 := abs_pos.mp hpos
  have hlog : 3 ≤ Int.log 2 |d| :=
    (Int.zpow_le_iff_le_log (by norm_num) hpos).mp (by push_cast; norm_num; linarith)
  have hself : (2 : ℚ) ^ Int.log 2 |d| ≤ |d| := by
    have := Int.zpow_log_le_self (b := 2) (by norm_num) hpos
    exact_mod_cast this
  unfold roundFloat64
  rw [if_neg h0, max_eq_left (by omega : (-1022 : Int) ≤ Int.log 2 |d|)]
  generalize Int.log 2 |d| = e at hlog hself
  have hu : (0 : ℚ) < 2 ^ (e - 52) := zpow_pos (by norm_num) _
  rw [abs_mul, abs_of_pos hu]
  rcases eq_or_lt_of_le hlog with he | he
  · subst he
    have hu3 : (2 : ℚ) ^ ((3 : Int) - 52) = 1 / 2 ^ 49 := by norm_num [zpow_neg]
    rw [hu3]
    have hN : ((5629499534213120 : Int) : ℚ) ≤ |(roundHalfEven (d / (1 / 2 ^ 49)) : ℚ)| := by
      apply roundHalfEven_abs_ge (by decide)
      rw [abs_div, abs_of_pos (by norm_num : (0 : ℚ) < 1 / 2 ^ 49)]
      rw [le_div_iff₀ (by norm_num)]
      push_cast
      norm_num
      norm_num at h
      linarith
    push_cast at hN
    have : (5629499534213120 : ℚ) * (1 / 2 ^ 49) = 10 := by norm_num
    nlinarith
  · have h4 : (4 : Int) ≤ e := he
    have e1 : (2 : ℚ) ^ e = 2 ^ (52 : Int) * 2 ^ (e - 52) := by
      rw [← zpow_add₀ (by norm_num)]; congr 1; omega
    have e2 : (2 : ℚ) ^ (52 : Int) = 4503599627370496 := by norm_num
    have e3 : (2 : ℚ) ^ (4 : Int) = 16 := by norm_num
    have hN : ((4503599627370496 : Int) : ℚ) ≤ |(roundHalfEven (d / 2 ^ (e - 52)) : ℚ)| := by
      apply roundHalfEven_abs_ge (by decide)
      rw [abs_div, abs_of_pos hu, le_div_iff₀ hu]
      rw [e1, e2] at hself
      push_cast
      nlinarith
    have h16 : (2 : ℚ) ^ (4 : Int) ≤ 2 ^ e := zpow_le_zpow_right₀ (by norm_num) h4
    rw [e1, e2, e3] at h16
    push_cast at hN
    nlinarith

/-- The absolute test of `Less` on the rounded difference: the `float64`
difference is below 10 in absolute value exactly when the exact difference is
below `10 - 2 ^ (-50)`, the midpoint of 10 and the `float64` before it (at the
midpoint the tie goes to 10). -/
theorem roundFloat64_abs_lt_ten_iff (d : ℚ) :
    |roundFloat64 d| < 10 ↔ |d| < 10 - 1 / 2 ^ 50 := by
  constructor
  · intro h
    by_contra hc
    exact absurd h (not_lt.mpr (roundFloat64_abs_ge_ten_of (not_lt.mp hc)))
  · exact roundFloat64_abs_lt_ten_of

/-- The `float64` for the decimal 10.1. -/
theorem roundFloat64_ten_point_one :
    roundFloat64 (101 / 10) = 5685794529555251 / 2 ^ 49 := by
  rw [roundFloat64_eq_of_near (101 / 10) 3 5685794529555251 (by norm_num)
    (by norm_num [abs_of_pos]) (by norm_num [abs_of_pos]) (by norm_num) (by norm_num [abs_lt])]
  norm_num

/-- The `float64` for the decimal 0.1. -/
theorem roundFloat64_one_tenth :
    roundFloat64 (1 / 10) = 3602879701896397 / 2 ^ 55 := by
  rw [roundFloat64_eq_of_near (1 / 10) (-4) 7205759403792794 (by norm_num)
    (by norm_num [abs_of_pos]) (by norm_num [abs_of_pos]) (by norm_num) (by norm_num [abs_lt])]
  norm_num

/-- The `float64` for the literal `0.01`. -/
theorem roundFloat64_one_percent :
    roundFloat64 (1 / 100) = 5764607523034235 / 2 ^ 59 := by
  rw [roundFloat64_eq_of_near (1 / 100) (-7) 5764607523034235 (by norm_num)
    (by norm_num [abs_of_pos]) (by norm_num [abs_of_pos]) (by norm_num) (by norm_num [abs_lt])]
  norm_num

/-- The `float64` difference of 10.1 and 0.1 is 10: the exact difference of the
two `float64` numbers is `10 - 13 / 2 ^ 55`, nearer to 10 than to the
`float64` before it, `10 - 2 ^ (-49)`. -/
theorem roundFloat64_difference :
    roundFloat64 (5685794529555251 / 2 ^ 49 - 3602879701896397 / 2 ^ 55) = 10 := by
  rw [roundFloat64_eq_of_near _ 3 5629499534213120 (by norm_num) (by norm_num [abs_of_pos])
    (by norm_num [abs_of_pos]) (by norm_num) (by norm_num [abs_lt])]
  norm_num

/-- The `float64` quotient of 10 by 10.1. -/
theorem roundFloat64_quotient :
    roundFloat64 (10 / (5685794529555251 / 2 ^ 49)) = 8918019064099992 / 2 ^ 53 := by
  rw [roundFloat64_eq_of_near _ (-1) 8918019064099992 (by norm_num) (by norm_num [abs_of_pos])
    (by norm_num [abs_of_pos]) (by norm_num) (by norm_num [abs_lt])]
  norm_num

/-- The `float64` difference of 1000500 and 1000000. -/
theorem roundFloat64_five_hundred : roundFloat64 (1000500 - 1000000) = 500 := by
  rw [roundFloat64_eq_of_near _ 8 8796093022208000 (by norm_num) (by norm_num [abs_of_pos])
    (by norm_num [abs_of_pos]) (by norm_num) (by norm_num [abs_lt])]
  norm_num

/-- The `float64` quotient of 500 by 1000500. -/
theorem roundFloat64_half_permille :
    roundFloat64 (500 / 1000500) = 2304690663881753 / 2 ^ 62 := by
  rw [roundFloat64_eq_of_near _ (-11) 4609381327763506 (by norm_num) (by norm_num [abs_of_pos])
    (by norm_num [abs_of_pos]) (by norm_num) (by norm_num [abs_lt])]
  norm_num

/-! ### C3, C4: the two comparisons of initialized costs -/

/-- In exact arithmetic: for two initialized costs (both column counts
non-zero) whose query costs differ by less than 10, or by less than 1% of the
larger one, `Less` holds exactly when `a` has fewer index columns than `b`. -/
theorem Less_close_iff_fewer_columns (a b : IndexConfCost)
    (ha : a.TotalNumberOfIndexColumns ≠ 0) (hb : b.TotalNumberOfIndexColumns ≠ 0)
    (h : |a.TotalWorkloadQueryCost - b.TotalWorkloadQueryCost| < 10 ∨
      (max a.TotalWorkloadQueryCost b.TotalWorkloadQueryCost ≠ 0 ∧
        |a.TotalWorkloadQueryCost - b.TotalWorkloadQueryCost| /
          max a.TotalWorkloadQueryCost b.TotalWorkloadQueryCost < 1 / 100)) :
    a.Less b = true ↔ a.TotalNumberOfIndexColumns < b.TotalNumberOfIndexColumns := by
  have hc : CloseCosts a.TotalWorkloadQueryCost b.TotalWorkloadQueryCost := h
  rw [Less_iff]
  constructor
  · rintro ⟨_, h0 | ⟨_, hlt⟩ | ⟨hn, _⟩⟩
    · exact absurd h0 hb
    · exact hlt
    · exact absurd hc hn
  · intro hlt
    exact ⟨ha, Or.inr (Or.inl ⟨hc, hlt⟩)⟩

/-- C3, counterexample: two initialized costs less than 10 apart that the
method orders by cost.  The costs are the `float64` numbers for 10.1 and 0.1,
with 1 and 2 columns.  Their exact difference is `10 - 13 / 2 ^ 55`, below 10,
but the `float64` subtraction gives exactly 10, which is not below 10; the
`float64` quotient of 10 by 10.1 is not below `0.01`; so the costs are compared,
and 10.1 is not below 0.1, although the first has fewer columns. -/
theorem LessRounded_close_by_cost :
    roundFloat64 (101 / 10) = 5685794529555251 / 2 ^ 49 ∧
      roundFloat64 (1 / 10) = 3602879701896397 / 2 ^ 55 ∧
      |(5685794529555251 / 2 ^ 49 : ℚ) - 3602879701896397 / 2 ^ 55| < 10 ∧
      roundFloat64 (5685794529555251 / 2 ^ 49 - 3602879701896397 / 2 ^ 55) = 10 ∧
      IndexConfCost.LessRounded roundFloat64
        ⟨5685794529555251 / 2 ^ 49, 1⟩ ⟨3602879701896397 / 2 ^ 55, 2⟩ = false ∧
      (1 : Int) < 2 := by
  refine ⟨roundFloat64_ten_point_one, roundFloat64_one_tenth, by norm_num [abs_lt],
    roundFloat64_difference, ?_, by decide⟩
  have hmax : max (5685794529555251 / 2 ^ 49 : ℚ) (3602879701896397 / 2 ^ 55)
      = 5685794529555251 / 2 ^ 49 := max_eq_left (by norm_num)
  simp only [IndexConfCost.LessRounded, roundFloat64_difference, hmax]
  rw [abs_of_pos (by norm_num : (0 : ℚ) < 10), roundFloat64_quotient, roundFloat64_one_percent]
  norm_num

/-- C3, amended: for two initialized costs (both column counts non-zero), if
the `float64` difference of the query costs is below 10 in absolute value, or
its `float64` quotient by the larger cost is below the `float64` for `0.01`,
then `a.Less(b)` holds exactly when `a` has fewer index columns than `b`.  The
first test is on the rounded difference: it holds exactly when the exact
difference is below `10 - 2 ^ (-50)` in absolute value. -/
theorem LessRounded_close_iff_fewer_columns (a b : IndexConfCost)
    (ha : a.TotalNumberOfIndexColumns ≠ 0) (hb : b.TotalNumberOfIndexColumns ≠ 0)
    (h : |roundFloat64 (a.TotalWorkloadQueryCost - b.TotalWorkloadQueryCost)| < 10 ∨
      (max a.TotalWorkloadQueryCost b.TotalWorkloadQueryCost ≠ 0 ∧
        roundFloat64 (|roundFloat64 (a.TotalWorkloadQueryCost - b.TotalWorkloadQueryCost)| /
          max a.TotalWorkloadQueryCost b.TotalWorkloadQueryCost) < roundFloat64 (1 / 100))) :
    (a.LessRounded roundFloat64 b = true ↔
        a.TotalNumberOfIndexColumns < b.TotalNumberOfIndexColumns) ∧
      (|roundFloat64 (a.TotalWorkloadQueryCost - b.TotalWorkloadQueryCost)| < 10 ↔
        |a.TotalWorkloadQueryCost - b.TotalWorkloadQueryCost| < 10 - 1 / 2 ^ 50) := by
  refine ⟨?_, roundFloat64_abs_lt_ten_iff _⟩
  have hclose : (decide (|roundFloat64 (a.TotalWorkloadQueryCost - b.TotalWorkloadQueryCost)| < 10) ||
      (if max a.TotalWorkloadQueryCost b.TotalWorkloadQueryCost = 0 then false
       else decide (roundFloat64
        (|roundFloat64 (a.TotalWorkloadQueryCost - b.TotalWorkloadQueryCost)| /
          max a.TotalWorkloadQueryCost b.TotalWorkloadQueryCost) < roundFloat64 (1 / 100)))) = true := by
    rw [Bool.or_eq_true]
    rcases h with h | ⟨h0, h⟩
    · exact Or.inl (decide_eq_true h)
    · exact Or.inr (by rw [if_neg h0]; exact decide_eq_true h)
  unfold IndexConfCost.LessRounded
  simp only [if_neg ha, if_neg hb, hclose, if_true, decide_eq_true_eq]

/-- C3 at costs 1000500 and 1000000 (500 apart, and 0.05% apart) with 2 and 3
columns: the `float64` quotient of 500 by 1000500 is below the `float64` for
`0.01`, and the dearer configuration, which has fewer columns, is less. -/
theorem LessRounded_close_iff_fewer_columns_witness :
    (IndexConfCost.LessRounded roundFloat64 ⟨1000500, 2⟩ ⟨1000000, 3⟩ = true ↔ (2 : Int) < 3) ∧
      (|roundFloat64 (1000500 - 1000000)| < 10 ↔
        |(1000500 : ℚ) - 1000000| < 10 - 1 / 2 ^ 50) :=
  LessRounded_close_iff_fewer_columns ⟨1000500, 2⟩ ⟨1000000, 3⟩ (by decide) (by decide)
    (Or.inr ⟨by norm_num, by
      have hmax : max (1000500 : ℚ) 1000000 = 1000500 := max_eq_left (by norm_num)
      show roundFloat64 (|roundFloat64 (1000500 - 1000000)| / max (1000500 : ℚ) 1000000)
        < roundFloat64 (1 / 100)
      rw [roundFloat64_five_hundred, hmax, abs_of_pos (by norm_num : (0 : ℚ) < 500),
        roundFloat64_half_permille, roundFloat64_one_percent]
      norm_num⟩)

/-- C4: for two initialized costs whose query costs are not close (they differ
by at least 10 and by at least 1% of the larger one), `a.Less(b)` holds exactly
when `a` has the lower query cost, whatever the column counts. -/
theorem Less_not_close_iff_cheaper (a b : IndexConfCost)
    (ha : a.TotalNumberOfIndexColumns ≠ 0) (hb : b.TotalNumberOfIndexColumns ≠ 0)
    (h10 : 10 ≤ |a.TotalWorkloadQueryCost - b.TotalWorkloadQueryCost|)
    (hrel : 1 / 100 ≤ |a.TotalWorkloadQueryCost - b.TotalWorkloadQueryCost| /
      max a.TotalWorkloadQueryCost b.TotalWorkloadQueryCost) :
    a.Less b = true ↔ a.TotalWorkloadQueryCost < b.TotalWorkloadQueryCost := by
  have hn : ¬ CloseCosts a.TotalWorkloadQueryCost b.TotalWorkloadQueryCost := by
    rintro (h | ⟨_, h⟩)
    · exact absurd h (not_lt.2 h10)
    · exact absurd h (not_lt.2 hrel)
  rw [Less_iff]
  constructor
  · rintro ⟨_, h0 | ⟨hc, _⟩ | ⟨_, hlt⟩⟩
    · exact absurd h0 hb
    · exact absurd hc hn
    · exact hlt
  · intro hlt
    exact ⟨ha, Or.inr (Or.inr ⟨hn, hlt⟩)⟩

/-- C4 at costs 1000 and 990 with 5 and 1 columns: the difference is exactly
10 and exactly 1% of the larger cost, so the pair is not close and the cheaper
configuration is less although it is the wider one. -/
theorem Less_not_close_iff_cheaper_witness :
    (IndexConfCost.Less ⟨990, 5⟩ ⟨1000, 1⟩ = true ↔ (990 : ℚ) < 1000) :=
  Less_not_close_iff_cheaper ⟨990, 5⟩ ⟨1000, 1⟩ (by decide) (by decide)
    (by norm_num [abs_of_neg]) (by norm_num [abs_of_neg])

/-! ### C5, C6: uninitialized costs -/

/-- C5: an uninitialized cost (zero index columns) is never less than any
cost. -/
theorem Less_uninitialized_left (a b : IndexConfCost)
    (ha : a.TotalNumberOfIndexColumns = 0) : a.Less b = false := by
  unfold IndexConfCost.Less
  rw [if_pos ha]

/-- C5 at an uninitialized cost of 0 against an initialized cost of 500. -/
theorem Less_uninitialized_left_witness :
    IndexConfCost.Less ⟨0, 0⟩ ⟨500, 2⟩ = false :=
  Less_uninitialized_left ⟨0, 0⟩ ⟨500, 2⟩ rfl

/-- C6: every initialized cost (non-zero index columns) is less than an
uninitialized one, whatever the two query costs are. -/
theorem Less_uninitialized_right (a b : IndexConfCost)
    (ha : a.TotalNumberOfIndexColumns ≠ 0) (hb : b.TotalNumberOfIndexColumns = 0) :
    a.Less b = true := by
  unfold IndexConfCost.Less
  rw [if_neg ha, if_pos hb]

/-- C6 at an initialized cost of 500 against an uninitialized cost of 0: the
dearer configuration is less. -/
theorem Less_uninitialized_right_witness :
    IndexConfCost.Less ⟨500, 2⟩ ⟨0, 0⟩ = true :=
  Less_uninitialized_right ⟨500, 2⟩ ⟨0, 0⟩ (by decide) rfl

/-! ## Properties of `Index.PrefixContain` and `Index.Key` -/

theorem ColumnNames_eq_map (i : Index) : i.ColumnNames = i.Columns.map Column.ColumnName := by
  unfold Index.ColumnNames
  have key : ∀ (cols : List Column) (acc : List String),
      cols.foldl (fun names col => names ++ [col.ColumnName]) acc
        = acc ++ cols.map Column.ColumnName := by
    intro cols
    induction cols with
    | nil => intro acc; simp
    | cons c cs ih => intro acc; simp [ih]
  simpa using key i.Columns []

theorem loop_iff (ic jc : List Column) (ks : List Nat) :
    Index.PrefixContain.loop ic jc ks = true ↔
      ∀ k ∈ ks, (ic.getD k default).ColumnName = (jc.getD k default).ColumnName := by
  induction ks with
  | nil => simp [Index.PrefixContain.loop]
  | cons k ks ih =>
    unfold Index.PrefixContain.loop
    rw [List.forall_mem_cons]
    by_cases h : (ic.getD k default).ColumnName = (jc.getD k default).ColumnName
    · rw [if_neg (by rw [bne_iff_ne]; exact not_not.2 h), ih]
      exact ⟨fun hk => ⟨h, hk⟩, fun hk => hk.2⟩
    · rw [if_pos (by rw [bne_iff_ne]; exact h)]
      exact ⟨fun hf => absurd hf (by decide), fun hk => absurd hk.1 h⟩

/-- Agreement of two lists under `f` at every position of the shorter one is
equality of the shorter one's image with a prefix of the longer one's. -/
theorem take_map_eq_iff {α β : Type} (f : α → β) (d : α) (xs ys : List α)
    (h : ys.length ≤ xs.length) :
    (∀ k, k < ys.length → f (xs.getD k d) = f (ys.getD k d)) ↔
      (xs.map f).take ys.length = ys.map f := by
  induction ys generalizing xs with
  | nil => simp
  | cons y ys ih =>
    cases xs with
    | nil => simp at h
    | cons x xs =>
      have h2 : ys.length ≤ xs.length := by simpa using h
      simp only [List.length_cons, List.map_cons, List.take_succ_cons, List.cons.injEq]
      rw [← ih xs h2]
      constructor
      · intro hk
        refine ⟨by simpa using hk 0 (Nat.succ_pos _), fun k hlt => ?_⟩
        simpa using hk (k + 1) (Nat.succ_lt_succ hlt)
      · rintro ⟨h0, hk⟩ k hlt
        cases k with
        | zero => simpa using h0
        | succ k => simpa using hk k (Nat.lt_of_succ_lt_succ hlt)

/-- `PrefixContain` in terms of the column-name lists. -/
theorem PrefixContain_iff (i j : Index) :
    i.PrefixContain j = true ↔
      i.SchemaName = j.SchemaName ∧ i.TableName = j.TableName ∧
        j.Columns.length ≤ i.Columns.length ∧
        (i.Columns.map Column.ColumnName).take j.Columns.length
          = j.Columns.map Column.ColumnName := by
  unfold Index.PrefixContain
  by_cases hs : i.SchemaName = j.SchemaName
  · by_cases ht : i.TableName = j.TableName
    · by_cases hl : i.Columns.length < j.Columns.length
      · simp [hs, ht, hl]
      · have hle : j.Columns.length ≤ i.Columns.length := not_lt.1 hl
        rw [if_neg (by simp [hs, ht, hl]), loop_iff, ← take_map_eq_iff _ _ _ _ hle]
        simp only [List.mem_range]
        exact ⟨fun h => ⟨hs, ht, hle, h⟩, fun h => h.2.2.2⟩
    · simp [hs, ht]
  · simp [hs]

/-- Columns of one table are determined by their names. -/
theorem columns_eq_of_names_eq (sch tbl : String) (xs ys : List Column)
    (hx : ∀ c ∈ xs, c.SchemaName = sch ∧ c.TableName = tbl)
    (hy : ∀ c ∈ ys, c.SchemaName = sch ∧ c.TableName = tbl)
    (h : xs.map Column.ColumnName = ys.map Column.ColumnName) : xs = ys := by
  induction xs generalizing ys with
  | nil =>
    cases ys with
    | nil => rfl
    | cons y ys => simp at h
  | cons x xs ih =>
    cases ys with
    | nil => simp at h
    | cons y ys =>
      simp only [List.map_cons, List.cons.injEq] at h
      have hx0 := hx x (List.mem_cons_self _ _)
      have hy0 := hy y (List.mem_cons_self _ _)
      have hxy : x = y := by
        cases x; cases y
        simp only [Column.mk.injEq]
        exact ⟨hx0.1.trans hy0.1.symm, hx0.2.trans hy0.2.symm, h.1⟩
      rw [hxy, ih ys (fun c hc => hx c (List.mem_cons_of_mem _ hc))
        (fun c hc => hy c (List.mem_cons_of_mem _ hc)) h.2]

/-! ### C7: what `PrefixContain` decides -/

/-- C7: for two indexes whose columns all belong to their own index's schema
and table, `I.PrefixContain(J)` is true if and only if `I` and `J` have the
same schema and table, `I` has at least as many columns as `J`, and the first
`|J.Columns|` columns of `I` are `J`'s columns, position by position. -/
theorem PrefixContain_iff_take (I J : Index)
    (hI : ∀ c ∈ I.Columns, c.SchemaName = I.SchemaName ∧ c.TableName = I.TableName)
    (hJ : ∀ c ∈ J.Columns, c.SchemaName = J.SchemaName ∧ c.TableName = J.TableName) :
    I.PrefixContain J = true ↔
      I.SchemaName = J.SchemaName ∧ I.TableName = J.TableName ∧
        J.Columns.length ≤ I.Columns.length ∧
        I.Columns.take J.Columns.length = J.Columns := by
  rw [PrefixContain_iff]
  constructor
  · rintro ⟨hs, ht, hl, hn⟩
    refine ⟨hs, ht, hl, ?_⟩
    apply columns_eq_of_names_eq J.SchemaName J.TableName
    · intro c hc
      have := hI c (List.mem_of_mem_take hc)
      exact ⟨this.1.trans hs, this.2.trans ht⟩
    · exact hJ
    · rw [List.map_take]; exact hn
  · rintro ⟨hs, ht, hl, hc⟩
    refine ⟨hs, ht, hl, ?_⟩
    rw [← List.map_take, hc]

/-- C7 at `test.t(a,b)` against `test.t(a)`: the wider index prefix-contains
the narrower one. -/
theorem PrefixContain_iff_take_witness :
    Index.PrefixContain ⟨"test", "t", "idx_ab", [⟨"test", "t", "a"⟩, ⟨"test", "t", "b"⟩]⟩
        ⟨"test", "t", "idx_a", [⟨"test", "t", "a"⟩]⟩ = true ↔
      "test" = "test" ∧ "t" = "t" ∧ 1 ≤ 2 ∧
        List.take 1 [(⟨"test", "t", "a"⟩ : Column), ⟨"test", "t", "b"⟩]
          = [⟨"test", "t", "a"⟩] :=
  PrefixContain_iff_take
    ⟨"test", "t", "idx_ab", [⟨"test", "t", "a"⟩, ⟨"test", "t", "b"⟩]⟩
    ⟨"test", "t", "idx_a", [⟨"test", "t", "a"⟩]⟩ (by decide) (by decide)

/-! ### C8, C9: `PrefixContain` as an order -/

/-- C8: `PrefixContain` is reflexive and transitive: `I.PrefixContain(I)` is
true for every index, and `I.PrefixContain(J)` and `J.PrefixContain(L)` give
`I.PrefixContain(L)`. -/
theorem PrefixContain_refl_trans :
    (∀ I : Index, I.PrefixContain I = true) ∧
      (∀ I J L : Index, I.PrefixContain J = true → J.PrefixContain L = true →
        I.PrefixContain L = true) := by
  constructor
  · intro I
    rw [PrefixContain_iff]
    refine ⟨rfl, rfl, le_refl _, ?_⟩
    rw [← List.map_take, List.take_length]
  · intro I J L hIJ hJL
    rw [PrefixContain_iff] at hIJ hJL ⊢
    obtain ⟨hs1, ht1, hl1, hn1⟩ := hIJ
    obtain ⟨hs2, ht2, hl2, hn2⟩ := hJL
    refine ⟨hs1.trans hs2, ht1.trans ht2, le_trans hl2 hl1, ?_⟩
    rw [← hn2, ← hn1, List.take_take, min_eq_left hl2]

/-- C9: `PrefixContain` is antisymmetric on indexes of equal length: two
indexes with the same number of columns that prefix-contain each other have
the same `Key`. -/
theorem PrefixContain_antisymm_key (I J : Index)
    (hlen : I.Columns.length = J.Columns.length)
    (hIJ : I.PrefixContain J = true) (_hJI : J.PrefixContain I = true) :
    I.Key = J.Key := by
  rw [PrefixContain_iff] at hIJ
  obtain ⟨hs, ht, _, hn⟩ := hIJ
  have hnames : I.ColumnNames = J.ColumnNames := by
    rw [ColumnNames_eq_map, ColumnNames_eq_map, ← hn, ← hlen, ← List.map_take,
      List.take_length]
  unfold Index.Key
  rw [hs, ht, hnames]

/-- C9 at two indexes on `test.t(a,b)` that differ only in their index name. -/
theorem PrefixContain_antisymm_key_witness :
    Index.Key ⟨"test", "t", "idx1", [⟨"test", "t", "a"⟩, ⟨"test", "t", "b"⟩]⟩
      = Index.Key ⟨"test", "t", "idx2", [⟨"test", "t", "a"⟩, ⟨"test", "t", "b"⟩]⟩ :=
  PrefixContain_antisymm_key
    ⟨"test", "t", "idx1", [⟨"test", "t", "a"⟩, ⟨"test", "t", "b"⟩]⟩
    ⟨"test", "t", "idx2", [⟨"test", "t", "a"⟩, ⟨"test", "t", "b"⟩]⟩
    (by decide) (by decide) (by decide)

/-! ### C10: indexes with the same `Key` -/

/-- Two strings that continue after the same separator, which occurs in
neither head, have equal heads and equal tails. -/
theorem append_cons_inj {c : Char} {s₁ s₂ r₁ r₂ : List Char} (h₁ : c ∉ s₁) (h₂ : c ∉ s₂)
    (h : s₁ ++ c :: r₁ = s₂ ++ c :: r₂) : s₁ = s₂ ∧ r₁ = r₂ := by
  induction s₁ generalizing s₂ with
  | nil =>
    cases s₂ with
    | nil => simpa using h
    | cons y ys =>
      simp only [List.nil_append, List.cons_append, List.cons.injEq] at h
      exact absurd (h.1 ▸ List.mem_cons_self _ _) h₂
  | cons x xs ih =>
    cases s₂ with
    | nil =>
      simp only [List.nil_append, List.cons_append, List.cons.injEq] at h
      exact absurd (h.1 ▸ List.mem_cons_self _ _) h₁
    | cons y ys =>
      simp only [List.cons_append, List.cons.injEq] at h
      obtain ⟨hxy, hrest⟩ := h
      have := ih (fun hm => h₁ (List.mem_cons_of_mem _ hm))
        (fun hm => h₂ (List.mem_cons_of_mem _ hm)) hrest
      exact ⟨by rw [hxy, this.1], this.2⟩

theorem intercalate_go_data (sep : String) (l : List String) (acc : String) :
    (String.intercalate.go acc sep l).data
      = acc.data ++ (l.map (fun s => sep.data ++ s.data)).flatten := by
  induction l generalizing acc with
  | nil => simp [String.intercalate.go]
  | cons a as ih => simp [String.intercalate.go, ih, List.append_assoc]

theorem list_intercalate_cons {α : Type} (sep x : List α) (xs : List (List α)) :
    sep.intercalate (x :: xs) = x ++ (xs.map (fun s => sep ++ s)).flatten := by
  induction xs generalizing x with
  | nil => simp [List.intercalate, List.intersperse]
  | cons y ys ih =>
    have := ih y
    simp only [List.intercalate] at this ⊢
    simp [List.intersperse, this]

/-- The characters of `strings.Join(l, sep)`. -/
theorem intercalate_data (sep : String) (l : List String) :
    (String.intercalate sep l).data = sep.data.intercalate (l.map String.data) := by
  cases l with
  | nil => simp [String.intercalate, List.intercalate]
  | cons a as =>
    rw [List.map_cons, list_intercalate_cons]
    simp [String.intercalate, intercalate_go_data, List.map_map, Function.comp_def]

/-- Joining with `,` is injective on non-empty lists of comma-free names. -/
theorem intercalate_comma_inj (l₁ l₂ : List String)
    (h₁ : ∀ s ∈ l₁, ',' ∉ s.data) (h₂ : ∀ s ∈ l₂, ',' ∉ s.data)
    (n₁ : l₁ ≠ []) (n₂ : l₂ ≠ [])
    (h : String.intercalate "," l₁ = String.intercalate "," l₂) : l₁ = l₂ := by
  have hd := congrArg String.data h
  rw [intercalate_data, intercalate_data] at hd
  have hsep : (",".data : List Char) = [','] := rfl
  rw [hsep] at hd
  have e₁ := List.splitOn_intercalate (l₁.map String.data) ','
    (by simpa using h₁) (by simpa using n₁)
  have e₂ := List.splitOn_intercalate (l₂.map String.data) ','
    (by simpa using h₂) (by simpa using n₂)
  rw [hd, e₂] at e₁
  have hinj : Function.Injective String.data := fun a b hab => String.ext hab
  exact (List.map_injective_iff.2 hinj e₁).symm

/-- The characters of a key. -/
theorem Key_data (i : Index) :
    i.Key.data = i.SchemaName.data ++ '.' ::
      (i.TableName.data ++ '(' :: ((String.intercalate "," i.ColumnNames).data ++ [')'])) := by
  simp [Index.Key, String.data_append]

/-- The key of an index determines its schema, table and column names when the
schema name has no `.`, the table name no `(`, no column name a `,`, and the
column list is not empty. -/
theorem Key_inj (I I2 : Index)
    (hs : '.' ∉ I.SchemaName.data) (hs2 : '.' ∉ I2.SchemaName.data)
    (ht : '(' ∉ I.TableName.data) (ht2 : '(' ∉ I2.TableName.data)
    (hc : ∀ c ∈ I.Columns, ',' ∉ c.ColumnName.data)
    (hc2 : ∀ c ∈ I2.Columns, ',' ∉ c.ColumnName.data)
    (hne : I.Columns ≠ []) (hne2 : I2.Columns ≠ [])
    (h : I.Key = I2.Key) :
    I.SchemaName = I2.SchemaName ∧ I.TableName = I2.TableName ∧
      I.Columns.map Column.ColumnName = I2.Columns.map Column.ColumnName := by
  have hd := congrArg String.data h
  rw [Key_data, Key_data] at hd
  obtain ⟨e1, hd⟩ := append_cons_inj hs hs2 hd
  obtain ⟨e2, hd⟩ := append_cons_inj ht ht2 hd
  have e3 := String.ext (List.append_cancel_right hd)
  rw [ColumnNames_eq_map, ColumnNames_eq_map] at e3
  refine ⟨String.ext e1, String.ext e2, intercalate_comma_inj _ _ ?_ ?_ ?_ ?_ e3⟩
  · intro s hmem
    obtain ⟨c, hcm, rfl⟩ := List.mem_map.1 hmem
    exact hc c hcm
  · intro s hmem
    obtain ⟨c, hcm, rfl⟩ := List.mem_map.1 hmem
    exact hc2 c hcm
  · simpa using hne
  · simpa using hne2

/-- C10, counterexample: the indexes on schema `a.b`, table `c` and on schema
`a`, table `b.c`, each with the one column `x`, have the same key `a.b.c(x)`,
but only the first prefix-contains the first. -/
theorem Key_eq_not_interchangeable :
    Index.Key ⟨"a.b", "c", "i", [⟨"a.b", "c", "x"⟩]⟩ = "a.b.c(x)" ∧
      Index.Key ⟨"a", "b.c", "i", [⟨"a", "b.c", "x"⟩]⟩ = "a.b.c(x)" ∧
      Index.PrefixContain ⟨"a.b", "c", "i", [⟨"a.b", "c", "x"⟩]⟩
          ⟨"a.b", "c", "i", [⟨"a.b", "c", "x"⟩]⟩ = true ∧
      Index.PrefixContain ⟨"a", "b.c", "i", [⟨"a", "b.c", "x"⟩]⟩
          ⟨"a.b", "c", "i", [⟨"a.b", "c", "x"⟩]⟩ = false := by
  decide

/-- C10, amended: two indexes with the same `Key` are interchangeable in
prefix-containment decisions when their names cannot be confused with the
key's punctuation: for indexes `I` and `I2` that each have at least one
column, no `.` in the schema name, no `(` in the table name and no `,` in a
column name, and for every index `J`, if `I.Key() = I2.Key()` then
`I.PrefixContain(J) = I2.PrefixContain(J)` and
`J.PrefixContain(I) = J.PrefixContain(I2)`. -/
theorem PrefixContain_congr_of_Key_eq (I I2 J : Index)
    (hs : '.' ∉ I.SchemaName.data) (hs2 : '.' ∉ I2.SchemaName.data)
    (ht : '(' ∉ I.TableName.data) (ht2 : '(' ∉ I2.TableName.data)
    (hc : ∀ c ∈ I.Columns, ',' ∉ c.ColumnName.data)
    (hc2 : ∀ c ∈ I2.Columns, ',' ∉ c.ColumnName.data)
    (hne : I.Columns ≠ []) (hne2 : I2.Columns ≠ [])
    (h : I.Key = I2.Key) :
    I.PrefixContain J = I2.PrefixContain J ∧ J.PrefixContain I = J.PrefixContain I2 := by
  obtain ⟨es, et, en⟩ := Key_inj I I2 hs hs2 ht ht2 hc hc2 hne hne2 h
  have el : I.Columns.length = I2.Columns.length := by
    simpa using congrArg List.length en
  constructor
  · rw [Bool.eq_iff_iff, PrefixContain_iff, PrefixContain_iff, es, et, en, el]
  · rw [Bool.eq_iff_iff, PrefixContain_iff, PrefixContain_iff, es, et, en, el]

/-- C10, amended, at two indexes on `test.t(a,b)` with different index names,
against `test.t(a)`. -/
theorem PrefixContain_congr_of_Key_eq_witness :
    Index.PrefixContain ⟨"test", "t", "idx1", [⟨"test", "t", "a"⟩, ⟨"test", "t", "b"⟩]⟩
        ⟨"test", "t", "idx_a", [⟨"test", "t", "a"⟩]⟩
      = Index.PrefixContain ⟨"test", "t", "idx2", [⟨"test", "t", "a"⟩, ⟨"test", "t", "b"⟩]⟩
        ⟨"test", "t", "idx_a", [⟨"test", "t", "a"⟩]⟩ ∧
    Index.PrefixContain ⟨"test", "t", "idx_a", [⟨"test", "t", "a"⟩]⟩
        ⟨"test", "t", "idx1", [⟨"test", "t", "a"⟩, ⟨"test", "t", "b"⟩]⟩
      = Index.PrefixContain ⟨"test", "t", "idx_a", [⟨"test", "t", "a"⟩]⟩
        ⟨"test", "t", "idx2", [⟨"test", "t", "a"⟩, ⟨"test", "t", "b"⟩]⟩ :=
  PrefixContain_congr_of_Key_eq
    ⟨"test", "t", "idx1", [⟨"test", "t", "a"⟩, ⟨"test", "t", "b"⟩]⟩
    ⟨"test", "t", "idx2", [⟨"test", "t", "a"⟩, ⟨"test", "t", "b"⟩]⟩
    ⟨"test", "t", "idx_a", [⟨"test", "t", "a"⟩]⟩
    (by decide) (by decide) (by decide) (by decide) (by decide) (by decide)
    (by decide) (by decide) (by decide)

/-! ## Keys and DDL text -/

/-! ### C11: `Column.Key` -/

/-- C11, counterexample: the column `d` of table `c` in schema `a.b` and the
column `d` of table `b.c` in schema `a` have the same key `a.b.c.d` and
different schema and table names. -/
theorem Column_Key_not_injective :
    Column.Key ⟨"a.b", "c", "d"⟩ = "a.b.c.d" ∧ Column.Key ⟨"a", "b.c", "d"⟩ = "a.b.c.d" ∧
      (⟨"a.b", "c", "d"⟩ : Column).SchemaName ≠ (⟨"a", "b.c", "d"⟩ : Column).SchemaName ∧
      (⟨"a.b", "c", "d"⟩ : Column).TableName ≠ (⟨"a", "b.c", "d"⟩ : Column).TableName := by
  decide

/-- C11, amended: `Column.Key` identifies a column among columns whose schema
and table names contain no `.`: for two such columns, if `c.Key() = d.Key()`
then they have the same schema name, table name and column name. -/
theorem Column_Key_inj (c d : Column)
    (hcs : '.' ∉ c.SchemaName.data) (hds : '.' ∉ d.SchemaName.data)
    (hct : '.' ∉ c.TableName.data) (hdt : '.' ∉ d.TableName.data)
    (h : c.Key = d.Key) :
    c.SchemaName = d.SchemaName ∧ c.TableName = d.TableName ∧ c.ColumnName = d.ColumnName := by
  have hd := congrArg String.data h
  have key : ∀ x : Column, x.Key.data
      = x.SchemaName.data ++ '.' :: (x.TableName.data ++ '.' :: x.ColumnName.data) := by
    intro x; simp [Column.Key, String.data_append]
  rw [key, key] at hd
  obtain ⟨e1, hd⟩ := append_cons_inj hcs hds hd
  obtain ⟨e2, e3⟩ := append_cons_inj hct hdt hd
  exact ⟨String.ext e1, String.ext e2, String.ext e3⟩

/-- C11, amended, at the column built by `NewColumn("Test", "T", "A")` and the
column `test.t.a`. -/
theorem Column_Key_inj_witness :
    (NewColumn "Test" "T" "A").SchemaName = "test" ∧
      (NewColumn "Test" "T" "A").TableName = "t" ∧
      (NewColumn "Test" "T" "A").ColumnName = "a" :=
  Column_Key_inj (NewColumn "Test" "T" "A") ⟨"test", "t", "a"⟩
    (by decide) (by decide) (by decide) (by decide) (by decide)

/-! ### C12, C13: the text of `Key` and `DDL` -/

/-- C12: the key of an index is its schema name, `.`, its table name, `(`, its
column names in index order joined by `,`, and `)`; the index name is no part
of it, so two indexes that differ only in `IndexName` have the same key. -/
theorem Index_Key_format :
    (∀ I : Index, I.Key = I.SchemaName ++ "." ++ I.TableName ++ "("
        ++ String.intercalate "," (I.Columns.map Column.ColumnName) ++ ")") ∧
      (∀ (I : Index) (name : String),
        Index.Key ⟨I.SchemaName, I.TableName, name, I.Columns⟩ = I.Key) := by
  constructor
  · intro I
    unfold Index.Key
    rw [ColumnNames_eq_map]
  · intro I name
    unfold Index.Key Index.ColumnNames
    rfl

/-- C13: the DDL of an index is `CREATE INDEX `, its index name, ` ON `, its
schema name, `.`, its table name, ` (`, its column names in index order joined
by `, `, and `)`. -/
theorem Index_DDL_format (I : Index) :
    I.DDL = "CREATE INDEX " ++ I.IndexName ++ " ON " ++ I.SchemaName ++ "." ++ I.TableName
      ++ " (" ++ String.intercalate ", " (I.Columns.map Column.ColumnName) ++ ")" := by
  unfold Index.DDL
  rw [ColumnNames_eq_map]

/-! ## Constructors -/

theorem NewColumns_eq_map (s t : String) (cs : List String) :
    NewColumns s t cs = cs.map (NewColumn s t) := by
  unfold NewColumns
  have key : ∀ (l : List String) (acc : List Column),
      l.foldl (fun cols col => cols ++ [NewColumn s t col]) acc
        = acc ++ l.map (NewColumn s t) := by
    intro l
    induction l with
    | nil => intro acc; simp
    | cons c cs ih => intro acc; simp [ih]
  simpa using key cs []

theorem toNat_ofNat_small (m : Nat) (h : m < 256) : (Char.ofNat m).toNat = m := by
  have hv : m.isValidChar := Or.inl (by omega)
  simp [Char.ofNat, hv, Char.toNat, Char.ofNatAux, UInt32.toNat]

theorem toNat_injective {a b : Char} (h : a.toNat = b.toNat) : a = b := by
  rw [← Char.ofNat_toNat a, ← Char.ofNat_toNat b, h]

theorem toLower_of_not_upper (c : Char) (h : ¬ (c.toNat ≥ 65 ∧ c.toNat ≤ 90)) :
    c.toLower = c := by
  simp [Char.toLower, h]

/-- Lowering a character twice is lowering it once. -/
theorem toLower_toLower (c : Char) : c.toLower.toLower = c.toLower := by
  by_cases h : c.toNat ≥ 65 ∧ c.toNat ≤ 90
  · have h1 : c.toLower = Char.ofNat (c.toNat + 32) := by simp [Char.toLower, h]
    have h2 : c.toLower.toNat = c.toNat + 32 := by
      rw [h1]; exact toNat_ofNat_small _ (by omega)
    exact toLower_of_not_upper _ (by omega)
  · rw [toLower_of_not_upper c h, toLower_of_not_upper c h]

/-- A character lowers to the lower-case letter `k` exactly when it is `k` or
the upper-case `k`. -/
theorem toLower_eq_iff (k c : Char) (hk : 97 ≤ k.toNat ∧ k.toNat ≤ 122) :
    c.toLower = k ↔ c = k ∨ c = k.toUpper := by
  have hku : k.toUpper = Char.ofNat (k.toNat - 32) := by simp [Char.toUpper, hk]
  have hkun : k.toUpper.toNat = k.toNat - 32 := by
    rw [hku]; exact toNat_ofNat_small _ (by omega)
  by_cases h : c.toNat ≥ 65 ∧ c.toNat ≤ 90
  · have h1 : c.toLower = Char.ofNat (c.toNat + 32) := by simp [Char.toLower, h]
    have h2 : c.toLower.toNat = c.toNat + 32 := by
      rw [h1]; exact toNat_ofNat_small _ (by omega)
    constructor
    · intro he
      right
      apply toNat_injective
      rw [hkun, ← he, h2]; omega
    · rintro (he | he)
      · subst he; omega
      · apply toNat_injective
        rw [h2, he, hkun]; omega
  · rw [toLower_of_not_upper c h]
    constructor
    · exact Or.inl
    · rintro (he | he)
      · exact he
      · exfalso; rw [he, hkun] at h; omega

theorem ToLower_ToLower (s : String) : ToLower (ToLower s) = ToLower s := by
  unfold ToLower
  simp [List.map_map, Function.comp_def, toLower_toLower]

theorem NewColumn_ToLower (s t c : String) :
    NewColumn (ToLower s) (ToLower t) (ToLower c) = NewColumn s t c := by
  unfold NewColumn
  rw [ToLower_ToLower, ToLower_ToLower, ToLower_ToLower]

/-- `NewIndex` depends on its arguments only through their lower-case forms. -/
theorem NewIndex_congr (s t n : String) (cs : List String) (s2 t2 n2 : String)
    (cs2 : List String) (hs : ToLower s = ToLower s2) (ht : ToLower t = ToLower t2)
    (hn : ToLower n = ToLower n2) (hcs : cs.map ToLower = cs2.map ToLower) :
    NewIndex s t n cs = NewIndex s2 t2 n2 cs2 := by
  have hcols : cs.map (NewColumn s t) = cs2.map (NewColumn s2 t2) := by
    have e : ∀ (a b : String) (l : List String), l.map (NewColumn a b)
        = (l.map ToLower).map (fun c => (⟨ToLower a, ToLower b, c⟩ : Column)) := by
      intro a b l; simp [List.map_map, Function.comp_def, NewColumn]
    rw [e, e, hs, ht, hcs]
  unfold NewIndex
  rw [NewColumns_eq_map, NewColumns_eq_map, hs, ht, hn, hcols]

/-! ### C14: case normalization -/

theorem NewColumnsWith_eq_map (lower : Char → Char) (s t : String) (cs : List String) :
    NewColumnsWith lower s t cs = cs.map (NewColumnWith lower s t) := by
  unfold NewColumnsWith
  have key : ∀ (l : List String) (acc : List Column),
      l.foldl (fun cols col => cols ++ [NewColumnWith lower s t col]) acc
        = acc ++ l.map (NewColumnWith lower s t) := by
    intro l
    induction l with
    | nil => intro acc; simp
    | cons c cs ih => intro acc; simp [ih]
  simpa using key cs []

/-- The constructors above are the constructors over `Char.toLower`. -/
theorem NewIndex_eq_NewIndexWith (s t n : String) (cs : List String) :
    NewIndex s t n cs = NewIndexWith Char.toLower s t n cs := rfl

theorem ToLowerWith_idem (lower : Char → Char) (hidem : ∀ c, lower (lower c) = lower c)
    (s : String) : ToLowerWith lower (ToLowerWith lower s) = ToLowerWith lower s := by
  unfold ToLowerWith
  simp [List.map_map, Function.comp_def, hidem]

/-- `NewIndexWith` reads its arguments only through their lower-case forms. -/
theorem NewIndexWith_congr (lower : Char → Char) (s t n : String) (cs : List String)
    (s2 t2 n2 : String) (cs2 : List String)
    (hs : ToLowerWith lower s = ToLowerWith lower s2)
    (ht : ToLowerWith lower t = ToLowerWith lower t2)
    (hn : ToLowerWith lower n = ToLowerWith lower n2)
    (hcs : cs.map (ToLowerWith lower) = cs2.map (ToLowerWith lower)) :
    NewIndexWith lower s t n cs = NewIndexWith lower s2 t2 n2 cs2 := by
  have hcols : cs.map (NewColumnWith lower s t) = cs2.map (NewColumnWith lower s2 t2) := by
    have e : ∀ (a b : String) (l : List String), l.map (NewColumnWith lower a b)
        = (l.map (ToLowerWith lower)).map
            (fun c => (⟨ToLowerWith lower a, ToLowerWith lower b, c⟩ : Column)) := by
      intro a b l; simp [List.map_map, Function.comp_def, NewColumnWith]
    rw [e, e, hs, ht, hcs]
  unfold NewIndexWith
  rw [NewColumnsWith_eq_map, NewColumnsWith_eq_map, hs, ht, hn, hcols]

/-- Texts that differ at most in the case of letters `a`..`z` have the same
lower-case form. -/
theorem SameUpToCase_lower (lower : Char → Char)
    (hascii : ∀ c : Char, c.toNat < 128 → lower c = c.toLower) (a b : List Char)
    (h : SameUpToCase a b = true) : a.map lower = b.map lower := by
  have hpair : ∀ c : Char, 97 ≤ c.toNat ∧ c.toNat ≤ 122 → lower c.toUpper = lower c := by
    intro c hc
    have hu : c.toUpper = Char.ofNat (c.toNat - 32) := by simp [Char.toUpper, hc]
    have hun : c.toUpper.toNat = c.toNat - 32 := by
      rw [hu]; exact toNat_ofNat_small _ (by omega)
    rw [hascii c.toUpper (by omega), hascii c (by omega),
      toLower_of_not_upper c (by omega)]
    exact (toLower_eq_iff c c.toUpper hc).2 (Or.inr rfl)
  induction a generalizing b with
  | nil =>
    cases b with
    | nil => rfl
    | cons d ds => simp [SameUpToCase] at h
  | cons c cs ih =>
    cases b with
    | nil => simp [SameUpToCase] at h
    | cons d ds =>
      simp only [SameUpToCase, Bool.and_eq_true, Bool.or_eq_true, beq_iff_eq,
        decide_eq_true_eq] at h
      obtain ⟨hcd, hrest⟩ := h
      rw [List.map_cons, List.map_cons, ih ds hrest]
      congr 1
      rcases hcd with (h1 | ⟨hc, h1⟩) | ⟨hd, h1⟩
      · rw [h1]
      · rw [h1]; exact (hpair c hc).symm
      · rw [h1]; exact hpair d hd

/-- C14: construction normalizes case, whatever table the mapping
`unicode.ToLower` of the Go release has, as long as it lowers `A`..`Z` and
leaves the other ASCII characters, and maps its own values to themselves.
`NewIndex` of some arguments is `NewIndex` of their lower-case forms; every
name stored in the result, in the index and in each of its columns, is its
argument with each character lowered; two calls whose arguments have the same
lower-case forms give indexes with the same `Key` and the same `DDL`; and so do
two calls whose arguments differ at most in the case of letters `a`..`z`. -/
theorem NewIndexWith_normalizes_case (lower : Char → Char)
    (hidem : ∀ c, lower (lower c) = lower c)
    (hascii : ∀ c : Char, c.toNat < 128 → lower c = c.toLower) :
    (∀ (s t n : String) (cs : List String),
        NewIndexWith lower s t n cs
          = NewIndexWith lower ⟨s.data.map lower⟩ ⟨t.data.map lower⟩ ⟨n.data.map lower⟩
              (cs.map (fun c => (⟨c.data.map lower⟩ : String)))) ∧
      (∀ (s t n : String) (cs : List String),
        (NewIndexWith lower s t n cs).SchemaName.data = s.data.map lower ∧
          (NewIndexWith lower s t n cs).TableName.data = t.data.map lower ∧
          (NewIndexWith lower s t n cs).IndexName.data = n.data.map lower ∧
          (NewIndexWith lower s t n cs).Columns
            = cs.map (fun c => (⟨⟨s.data.map lower⟩, ⟨t.data.map lower⟩,
                ⟨c.data.map lower⟩⟩ : Column))) ∧
      (∀ (s t n : String) (cs : List String) (s2 t2 n2 : String) (cs2 : List String),
        s.data.map lower = s2.data.map lower → t.data.map lower = t2.data.map lower →
          n.data.map lower = n2.data.map lower →
          cs.map (fun c => c.data.map lower) = cs2.map (fun c => c.data.map lower) →
          (NewIndexWith lower s t n cs).Key = (NewIndexWith lower s2 t2 n2 cs2).Key ∧
            (NewIndexWith lower s t n cs).DDL = (NewIndexWith lower s2 t2 n2 cs2).DDL) ∧
      (∀ (s t n : String) (cs : List String) (s2 t2 n2 : String) (cs2 : List String),
        SameUpToCase s.data s2.data = true → SameUpToCase t.data t2.data = true →
          SameUpToCase n.data n2.data = true →
          List.Forall₂ (fun c c2 => SameUpToCase c.data c2.data = true) cs cs2 →
          (NewIndexWith lower s t n cs).Key = (NewIndexWith lower s2 t2 n2 cs2).Key ∧
            (NewIndexWith lower s t n cs).DDL = (NewIndexWith lower s2 t2 n2 cs2).DDL) := by
  have hcongr : ∀ (s t n : String) (cs : List String) (s2 t2 n2 : String) (cs2 : List String),
      ToLowerWith lower s = ToLowerWith lower s2 → ToLowerWith lower t = ToLowerWith lower t2 →
        ToLowerWith lower n = ToLowerWith lower n2 →
        cs.map (ToLowerWith lower) = cs2.map (ToLowerWith lower) →
        (NewIndexWith lower s t n cs).Key = (NewIndexWith lower s2 t2 n2 cs2).Key ∧
          (NewIndexWith lower s t n cs).DDL = (NewIndexWith lower s2 t2 n2 cs2).DDL := by
    intro s t n cs s2 t2 n2 cs2 hs ht hn hcs
    rw [NewIndexWith_congr lower s t n cs s2 t2 n2 cs2 hs ht hn hcs]
    exact ⟨rfl, rfl⟩
  have hsame : ∀ a b : String, SameUpToCase a.data b.data = true →
      ToLowerWith lower a = ToLowerWith lower b := by
    intro a b h
    apply String.ext
    exact SameUpToCase_lower lower hascii a.data b.data h
  refine ⟨?_, ?_, ?_, ?_⟩
  · intro s t n cs
    show NewIndexWith lower s t n cs
      = NewIndexWith lower (ToLowerWith lower s) (ToLowerWith lower t) (ToLowerWith lower n)
          (cs.map (ToLowerWith lower))
    apply NewIndexWith_congr
    · exact (ToLowerWith_idem lower hidem s).symm
    · exact (ToLowerWith_idem lower hidem t).symm
    · exact (ToLowerWith_idem lower hidem n).symm
    · simp [List.map_map, Function.comp_def, ToLowerWith_idem lower hidem]
  · intro s t n cs
    refine ⟨rfl, rfl, rfl, ?_⟩
    show NewColumnsWith lower s t cs = _
    rw [NewColumnsWith_eq_map]
    rfl
  · intro s t n cs s2 t2 n2 cs2 hs ht hn hcs
    refine hcongr s t n cs s2 t2 n2 cs2 (String.ext hs) (String.ext ht) (String.ext hn) ?_
    have e : ∀ l : List String, l.map (ToLowerWith lower)
        = (l.map (fun c => c.data.map lower)).map String.mk := by
      intro l; simp [List.map_map, Function.comp_def, ToLowerWith]
    rw [e, e, hcs]
  · intro s t n cs s2 t2 n2 cs2 hs ht hn hcs
    refine hcongr s t n cs s2 t2 n2 cs2 (hsame _ _ hs) (hsame _ _ ht) (hsame _ _ hn) ?_
    induction hcs with
    | nil => rfl
    | cons hhead _ ih => rw [List.map_cons, List.map_cons, hsame _ _ hhead, ih]

theorem latin1ToLower_not_upper (c : Char)
    (h : ¬ ((65 ≤ c.toNat ∧ c.toNat ≤ 90) ∨ (192 ≤ c.toNat ∧ c.toNat ≤ 222 ∧ c.toNat ≠ 215))) :
    latin1ToLower c = c := by
  unfold latin1ToLower
  rw [if_neg h]

theorem latin1ToLower_idem (c : Char) : latin1ToLower (latin1ToLower c) = latin1ToLower c := by
  by_cases h : (65 ≤ c.toNat ∧ c.toNat ≤ 90) ∨ (192 ≤ c.toNat ∧ c.toNat ≤ 222 ∧ c.toNat ≠ 215)
  · have h1 : latin1ToLower c = Char.ofNat (c.toNat + 32) := by
      unfold latin1ToLower
      rw [if_pos h]
    have h2 : (latin1ToLower c).toNat = c.toNat + 32 := by
      rw [h1]; exact toNat_ofNat_small _ (by omega)
    exact latin1ToLower_not_upper _ (by omega)
  · rw [latin1ToLower_not_upper c h, latin1ToLower_not_upper c h]

theorem latin1ToLower_ascii (c : Char) (h : c.toNat < 128) : latin1ToLower c = c.toLower := by
  unfold latin1ToLower Char.toLower
  by_cases hu : 65 ≤ c.toNat ∧ c.toNat ≤ 90
  · rw [if_pos (Or.inl hu)]
    simp [hu]
  · rw [if_neg (by omega)]
    simp only [ge_iff_le]
    rw [if_neg hu]

/-- C14 at the Latin-1 part of `unicode.ToLower`: `NewIndex("É", "T", "Idx",
"A")` and `NewIndex("é", "t", "idx", "a")` have the same `Key` and the same
`DDL`. -/
theorem NewIndexWith_normalizes_case_witness :
    (NewIndexWith latin1ToLower "É" "T" "Idx" ["A"]).Key
        = (NewIndexWith latin1ToLower "é" "t" "idx" ["a"]).Key ∧
      (NewIndexWith latin1ToLower "É" "T" "Idx" ["A"]).DDL
        = (NewIndexWith latin1ToLower "é" "t" "idx" ["a"]).DDL :=
  (NewIndexWith_normalizes_case latin1ToLower latin1ToLower_idem latin1ToLower_ascii).2.2.1
    "É" "T" "Idx" ["A"] "é" "t" "idx" ["a"] (by decide) (by decide) (by decide) (by decide)

/-! ### C15, C16: the columns of a new index -/

/-- C15: an index built by `NewIndex(s, t, n, cs...)` has exactly `len(cs)`
columns, named after `cs` in the order given, and each of its columns has the
schema name and the table name of the index. -/
theorem NewIndex_columns_belong (s t n : String) (cs : List String) :
    (NewIndex s t n cs).Columns.length = cs.length ∧
      (NewIndex s t n cs).Columns.map Column.ColumnName = cs.map ToLower ∧
      (∀ c ∈ (NewIndex s t n cs).Columns,
        c.SchemaName = (NewIndex s t n cs).SchemaName ∧
          c.TableName = (NewIndex s t n cs).TableName) := by
  have hcols : (NewIndex s t n cs).Columns = cs.map (NewColumn s t) := NewColumns_eq_map s t cs
  refine ⟨?_, ?_, ?_⟩
  · rw [hcols, List.length_map]
  · rw [hcols, List.map_map]
    rfl
  · intro c hc
    rw [hcols] at hc
    obtain ⟨name, _, rfl⟩ := List.mem_map.1 hc
    exact ⟨rfl, rfl⟩

/-- C16, counterexample: `NewIndex` called with no column names builds an
index whose column list is empty. -/
theorem NewIndex_empty_columns :
    (NewIndex "test" "t" "idx" []).Columns = [] := by
  decide

/-- C16, amended: an index built by `NewIndex` from at least one column name
has a non-empty column list. -/
theorem NewIndex_columns_ne_nil (s t n : String) (cs : List String) (h : cs ≠ []) :
    (NewIndex s t n cs).Columns ≠ [] := by
  have hcols : (NewIndex s t n cs).Columns = cs.map (NewColumn s t) := NewColumns_eq_map s t cs
  rw [hcols]
  simpa using h

/-- C16, amended, at `NewIndex("test", "t", "idx", "a")`. -/
theorem NewIndex_columns_ne_nil_witness :
    (NewIndex "test" "t" "idx" ["a"]).Columns ≠ [] :=
  NewIndex_columns_ne_nil "test" "t" "idx" ["a"] (by decide)

/-! ## `SQL.Type` -/

/-- Matching a lower-case word against the lowered head of a text is matching
it letter by letter in either case. -/
theorem isPrefixOf_lower_iff (kw text : List Char)
    (hkw : ∀ k ∈ kw, 97 ≤ k.toNat ∧ k.toNat ≤ 122) :
    kw.isPrefixOf ((text.take kw.length).map Char.toLower) = BeginsWithAnyCase kw text := by
  induction kw generalizing text with
  | nil => simp [BeginsWithAnyCase]
  | cons k ks ih =>
    cases text with
    | nil => simp [BeginsWithAnyCase]
    | cons c cs =>
      have hk := hkw k (List.mem_cons_self _ _)
      have ih2 := ih cs (fun x hx => hkw x (List.mem_cons_of_mem _ hx))
      simp only [List.length_cons, List.take_succ_cons, List.map_cons, List.isPrefixOf,
        BeginsWithAnyCase]
      rw [ih2]
      congr 1
      rw [Bool.eq_iff_iff]
      simp only [beq_iff_eq, Bool.or_eq_true]
      rw [eq_comm, toLower_eq_iff k c hk]

/-- A text shorter than the word does not begin with it. -/
theorem BeginsWithAnyCase_length (kw text : List Char) (h : BeginsWithAnyCase kw text = true) :
    kw.length ≤ text.length := by
  induction kw generalizing text with
  | nil => simp
  | cons k ks ih =>
    cases text with
    | nil => simp [BeginsWithAnyCase] at h
    | cons c cs =>
      simp only [BeginsWithAnyCase, Bool.and_eq_true] at h
      simpa using ih cs h.2

/-- Words with different first letters are not both heads of one string. -/
theorem isPrefixOf_head_ne (k₁ k₂ : Char) (ks₁ ks₂ l : List Char) (hne : k₁ ≠ k₂)
    (h₁ : (k₁ :: ks₁).isPrefixOf l = true) : (k₂ :: ks₂).isPrefixOf l = false := by
  cases l with
  | nil => simp at h₁
  | cons c cs =>
    simp only [List.isPrefixOf, Bool.and_eq_true, beq_iff_eq] at h₁
    simp only [List.isPrefixOf, Bool.and_eq_false_imp, beq_iff_eq]
    intro h2
    exact absurd (h₁.1.trans h2.symm) hne

/-- The three keyword tests of `Type`, on the lowered six-character head, are
the letter-case-blind tests on the text. -/
theorem HasPrefix_keyword_iff (text kw : String) (hlen : kw.length = 6)
    (hkw : ∀ k ∈ kw.data, 97 ≤ k.toNat ∧ k.toNat ≤ 122) :
    HasPrefix (ToLower ⟨text.data.take 6⟩) kw = BeginsWithAnyCase kw.data text.data := by
  unfold HasPrefix ToLower
  have h6 : kw.data.length = 6 := hlen
  rw [← isPrefixOf_lower_iff kw.data text.data hkw, h6]

/-- The chain of tests of `Type` on three mutually exclusive answers. -/
theorem keyword_chain (a b c : Bool) (hab : a = true → b = false) (hac : a = true → c = false)
    (hbc : b = true → c = false) :
    ((if a = true then SQLType.SQLTypeSelect else if b = true then SQLType.SQLTypeInsert
        else if c = true then SQLType.SQLTypeUpdate else SQLType.SQLTypeOthers)
        = SQLType.SQLTypeSelect ↔ a = true) ∧
      ((if a = true then SQLType.SQLTypeSelect else if b = true then SQLType.SQLTypeInsert
        else if c = true then SQLType.SQLTypeUpdate else SQLType.SQLTypeOthers)
        = SQLType.SQLTypeInsert ↔ b = true) ∧
      ((if a = true then SQLType.SQLTypeSelect else if b = true then SQLType.SQLTypeInsert
        else if c = true then SQLType.SQLTypeUpdate else SQLType.SQLTypeOthers)
        = SQLType.SQLTypeUpdate ↔ c = true) ∧
      ((if a = true then SQLType.SQLTypeSelect else if b = true then SQLType.SQLTypeInsert
        else if c = true then SQLType.SQLTypeUpdate else SQLType.SQLTypeOthers)
        = SQLType.SQLTypeOthers ↔ (a = false ∧ b = false ∧ c = false)) := by
  cases a <;> cases b <;> cases c <;> simp_all

/-- `Type` in terms of what `TrimSpace` returns: SELECT, INSERT or UPDATE
exactly when that begins with the keyword in any letter case, OTHER exactly
when it begins with none, and OTHER when it is shorter than six characters. -/
theorem SQL_Type_of_TrimSpace (sql : SQL) :
    (sql.Type = .SQLTypeSelect ↔
        BeginsWithAnyCase "select".data (TrimSpace sql.Text).data = true) ∧
      (sql.Type = .SQLTypeInsert ↔
        BeginsWithAnyCase "insert".data (TrimSpace sql.Text).data = true) ∧
      (sql.Type = .SQLTypeUpdate ↔
        BeginsWithAnyCase "update".data (TrimSpace sql.Text).data = true) ∧
      (sql.Type = .SQLTypeOthers ↔
        (BeginsWithAnyCase "select".data (TrimSpace sql.Text).data = false ∧
          BeginsWithAnyCase "insert".data (TrimSpace sql.Text).data = false ∧
          BeginsWithAnyCase "update".data (TrimSpace sql.Text).data = false)) ∧
      ((TrimSpace sql.Text).length < 6 → sql.Type = .SQLTypeOthers) := by
  have hs := HasPrefix_keyword_iff (TrimSpace sql.Text) "select" (by decide) (by decide)
  have hi := HasPrefix_keyword_iff (TrimSpace sql.Text) "insert" (by decide) (by decide)
  have hu := HasPrefix_keyword_iff (TrimSpace sql.Text) "update" (by decide) (by decide)
  have hshort : (TrimSpace sql.Text).length < 6 → sql.Type = .SQLTypeOthers := by
    intro h
    unfold SQL.Type
    simp only [h, if_true]
  by_cases hlen : (TrimSpace sql.Text).length < 6
  · have hty := hshort hlen
    have hno : ∀ kw : List Char, kw.length = 6 →
        BeginsWithAnyCase kw (TrimSpace sql.Text).data = false := by
      intro kw hk
      rw [Bool.eq_false_iff]
      intro hb
      have := BeginsWithAnyCase_length _ _ hb
      rw [hk] at this
      exact absurd hlen (not_lt.2 this)
    rw [hty, hno _ (by decide : "select".data.length = 6),
      hno _ (by decide : "insert".data.length = 6),
      hno _ (by decide : "update".data.length = 6)]
    simp
  · have hsi : ∀ l : List Char, "select".data.isPrefixOf l = true →
        "insert".data.isPrefixOf l = false :=
      fun l h => isPrefixOf_head_ne 's' 'i' _ _ l (by decide) h
    have hsu : ∀ l : List Char, "select".data.isPrefixOf l = true →
        "update".data.isPrefixOf l = false :=
      fun l h => isPrefixOf_head_ne 's' 'u' _ _ l (by decide) h
    have hiu : ∀ l : List Char, "insert".data.isPrefixOf l = true →
        "update".data.isPrefixOf l = false :=
      fun l h => isPrefixOf_head_ne 'i' 'u' _ _ l (by decide) h
    have hty : sql.Type =
        if HasPrefix (ToLower ⟨(TrimSpace sql.Text).data.take 6⟩) "select" then .SQLTypeSelect
        else if HasPrefix (ToLower ⟨(TrimSpace sql.Text).data.take 6⟩) "insert" then
          .SQLTypeInsert
        else if HasPrefix (ToLower ⟨(TrimSpace sql.Text).data.take 6⟩) "update" then
          .SQLTypeUpdate
        else .SQLTypeOthers := by
      unfold SQL.Type
      simp only [hlen, if_false]
    rw [← hs, ← hi, ← hu, hty]
    have hx := keyword_chain
      (HasPrefix (ToLower ⟨(TrimSpace sql.Text).data.take 6⟩) "select")
      (HasPrefix (ToLower ⟨(TrimSpace sql.Text).data.take 6⟩) "insert")
      (HasPrefix (ToLower ⟨(TrimSpace sql.Text).data.take 6⟩) "update")
      (hsi _) (hsu _) (hiu _)
    exact ⟨hx.1, hx.2.1, hx.2.2.1, hx.2.2.2, fun h => absurd h hlen⟩

/-! ### What `TrimSpace` removes -/

theorem toNat_ofNat_bmp (m : Nat) (h : m < 55296) : (Char.ofNat m).toNat = m := by
  have hv : m.isValidChar := Or.inl h
  simp [Char.ofNat, hv, Char.toNat, Char.ofNatAux, UInt32.toNat]

/-- `isSpace` holds of the characters of `whiteSpace` and of no other. -/
theorem isSpace_iff (c : Char) : isSpace c = true ↔ c ∈ whiteSpace := by
  constructor
  · intro h
    have hc : c = Char.ofNat c.toNat := (Char.ofNat_toNat c).symm
    have hcodes : c.toNat ∈ [9, 10, 11, 12, 13, 0x20, 0x85, 0xA0, 0x1680, 0x2000, 0x2001, 0x2002,
        0x2003, 0x2004, 0x2005, 0x2006, 0x2007, 0x2008, 0x2009, 0x200A, 0x2028, 0x2029, 0x202F,
        0x205F, 0x3000] := by
      unfold isSpace at h
      simp only [Bool.or_eq_true, Bool.and_eq_true, decide_eq_true_eq, beq_iff_eq] at h
      simp only [List.mem_cons, List.mem_singleton]
      omega
    rw [hc]
    revert hcodes
    generalize c.toNat = n
    intro hn
    simp only [List.mem_cons, List.mem_singleton, List.not_mem_nil, or_false] at hn
    rcases hn with h|h|h|h|h|h|h|h|h|h|h|h|h|h|h|h|h|h|h|h|h|h|h|h|h <;> subst h <;> decide
  · have hall : ∀ d ∈ whiteSpace, isSpace d = true := by decide
    exact hall c

/-- Leading characters that all satisfy `p` are dropped. -/
theorem dropWhile_append_all {α : Type} (p : α → Bool) (ws rest : List α)
    (h : ∀ c ∈ ws, p c = true) : (ws ++ rest).dropWhile p = rest.dropWhile p := by
  induction ws with
  | nil => rfl
  | cons w ws ih =>
    rw [List.cons_append, List.dropWhile_cons_of_pos (h w (List.mem_cons_self _ _))]
    exact ih (fun c hc => h c (List.mem_cons_of_mem _ hc))

/-- Trailing characters that all satisfy `p` are dropped. -/
theorem rdropWhile_append_all {α : Type} (p : α → Bool) (l ws : List α)
    (h : ∀ c ∈ ws, p c = true) : (l ++ ws).rdropWhile p = l.rdropWhile p := by
  unfold List.rdropWhile
  rw [List.reverse_append, dropWhile_append_all p ws.reverse l.reverse
    (fun c hc => h c (List.mem_reverse.1 hc))]

/-- `TrimSpace` returns the part between the leading and the trailing white
space. -/
theorem TrimSpace_core (text : String) (ws1 core ws2 : List Char)
    (htext : text.data = ws1 ++ core ++ ws2)
    (h1 : ∀ c ∈ ws1, c ∈ whiteSpace) (h2 : ∀ c ∈ ws2, c ∈ whiteSpace)
    (hhead : ∀ c, core.head? = some c → c ∉ whiteSpace)
    (hlast : ∀ c, core.getLast? = some c → c ∉ whiteSpace) :
    (TrimSpace text).data = core := by
  show (text.data.dropWhile isSpace).rdropWhile isSpace = core
  rw [htext, List.append_assoc,
    dropWhile_append_all isSpace ws1 _ (fun c hc => (isSpace_iff c).2 (h1 c hc))]
  cases core with
  | nil =>
    rw [List.nil_append]
    have : ws2.dropWhile isSpace = [] :=
      List.dropWhile_eq_nil_iff.2 (fun c hc => (isSpace_iff c).2 (h2 c hc))
    rw [this]
    rfl
  | cons c cs =>
    have hc : ¬ isSpace c = true := fun h => hhead c rfl ((isSpace_iff c).1 h)
    rw [List.cons_append, List.dropWhile_cons_of_neg hc, ← List.cons_append,
      rdropWhile_append_all isSpace _ ws2 (fun d hd => (isSpace_iff d).2 (h2 d hd)),
      List.rdropWhile_eq_self_iff]
    intro hne hsp
    exact hlast _ (List.getLast?_eq_getLast _ hne) ((isSpace_iff _).1 hsp)

/-- Every text is white space, a part that neither begins nor ends with white
space, and white space. -/
theorem trimmed_parts (text : List Char) :
    ∃ ws1 core ws2 : List Char, text = ws1 ++ core ++ ws2 ∧
      (∀ c ∈ ws1, c ∈ whiteSpace) ∧ (∀ c ∈ ws2, c ∈ whiteSpace) ∧
      (∀ c, core.head? = some c → c ∉ whiteSpace) ∧
      (∀ c, core.getLast? = some c → c ∉ whiteSpace) := by
  refine ⟨text.takeWhile isSpace, (text.dropWhile isSpace).rdropWhile isSpace,
    (text.dropWhile isSpace).rtakeWhile isSpace, ?_, ?_, ?_, ?_, ?_⟩
  · have hsplit : ∀ l : List Char, l.rdropWhile isSpace ++ l.rtakeWhile isSpace = l := by
      intro l
      unfold List.rdropWhile List.rtakeWhile
      rw [← List.reverse_append, List.takeWhile_append_dropWhile, List.reverse_reverse]
    rw [List.append_assoc, hsplit, List.takeWhile_append_dropWhile]
  · intro c hc
    exact (isSpace_iff c).1 (List.mem_takeWhile_imp hc)
  · intro c hc
    exact (isSpace_iff c).1 (List.mem_rtakeWhile_imp hc)
  · intro c hc hw
    have hpre : (text.dropWhile isSpace).rdropWhile isSpace <+: text.dropWhile isSpace :=
      List.rdropWhile_prefix _ _
    obtain ⟨t, ht⟩ := hpre
    have hhead : (text.dropWhile isSpace).head? = some c := by
      rw [← ht]
      cases hcore : (text.dropWhile isSpace).rdropWhile isSpace with
      | nil => rw [hcore] at hc; cases hc
      | cons x xs =>
        rw [hcore] at hc
        simpa using hc
    have hnot := List.head?_dropWhile_not isSpace text
    rw [hhead] at hnot
    simp only at hnot
    rw [(isSpace_iff c).2 hw] at hnot
    cases hnot
  · intro c hc hw
    have hne : (text.dropWhile isSpace).rdropWhile isSpace ≠ [] := by
      intro h0; rw [h0] at hc; cases hc
    have hlast := List.rdropWhile_last_not isSpace (text.dropWhile isSpace) hne
    rw [List.getLast?_eq_getLast _ hne] at hc
    simp only [Option.some.injEq] at hc
    rw [hc] at hlast
    exact hlast ((isSpace_iff c).2 hw)

/-! ### C17: the type of a statement -/

/-- C17: `Type` never fails and is decided by the first keyword of the text
without its leading and trailing white space.  Every text is white space, a
part `core` that neither begins nor ends with a white space character, and
white space; and whenever a text is written so, `Type` is SELECT exactly when
`core` begins with the letters `select` in any letter case, INSERT exactly when
it begins with `insert`, UPDATE exactly when it begins with `update`, OTHER
exactly when it begins with none of them, and OTHER when `core` is shorter
than six characters. -/
theorem SQL_Type_first_keyword (sql : SQL) :
    (∃ ws1 core ws2 : List Char, sql.Text.data = ws1 ++ core ++ ws2 ∧
      (∀ c ∈ ws1, c ∈ whiteSpace) ∧ (∀ c ∈ ws2, c ∈ whiteSpace) ∧
      (∀ c, core.head? = some c → c ∉ whiteSpace) ∧
      (∀ c, core.getLast? = some c → c ∉ whiteSpace)) ∧
    (∀ ws1 core ws2 : List Char, sql.Text.data = ws1 ++ core ++ ws2 →
      (∀ c ∈ ws1, c ∈ whiteSpace) → (∀ c ∈ ws2, c ∈ whiteSpace) →
      (∀ c, core.head? = some c → c ∉ whiteSpace) →
      (∀ c, core.getLast? = some c → c ∉ whiteSpace) →
      (sql.Type = .SQLTypeSelect ↔ BeginsWithAnyCase "select".data core = true) ∧
        (sql.Type = .SQLTypeInsert ↔ BeginsWithAnyCase "insert".data core = true) ∧
        (sql.Type = .SQLTypeUpdate ↔ BeginsWithAnyCase "update".data core = true) ∧
        (sql.Type = .SQLTypeOthers ↔
          (BeginsWithAnyCase "select".data core = false ∧
            BeginsWithAnyCase "insert".data core = false ∧
            BeginsWithAnyCase "update".data core = false)) ∧
        (core.length < 6 → sql.Type = .SQLTypeOthers)) := by
  refine ⟨trimmed_parts sql.Text.data, ?_⟩
  intro ws1 core ws2 htext h1 h2 hhead hlast
  have hcore := TrimSpace_core sql.Text ws1 core ws2 htext h1 h2 hhead hlast
  have h := SQL_Type_of_TrimSpace sql
  have hlen : (TrimSpace sql.Text).length = core.length := by
    show (TrimSpace sql.Text).data.length = core.length
    rw [hcore]
  rw [hcore, hlen] at h
  exact h

/-! ## `Plan` -/

/-! ### C18: the cost of a plan -/

/-- C18: for a plan whose first row has at least three cells, `PlanCost`
parses the cell in row 0, column 2: when the cell parses (nil error) it returns
the parsed number, and when it does not it returns no number and fails with the
parse error. -/
theorem PlanCost_row0_col2 {ε : Type} (ParseFloat : String → ℚ × Option ε)
    (p : Workload.Plan) (row : List String) (rest : List (List String))
    (hp : p.Plan = row :: rest) (h3 : 2 < row.length) :
    ((ParseFloat row[2]).2 = none → p.PlanCost ParseFloat = .ok (ParseFloat row[2]).1) ∧
      (∀ e, (ParseFloat row[2]).2 = some e → p.PlanCost ParseFloat = .error (.error e)) := by
  have hrow : p.Plan[0]? = some row := by rw [hp]; simp
  have hcell : row[2]? = some row[2] := List.getElem?_eq_getElem h3
  constructor
  · intro hnone
    unfold Plan.PlanCost
    simp only [hrow, hcell]
    rw [hnone]
    rfl
  · intro e hsome
    unfold Plan.PlanCost
    simp only [hrow, hcell]
    rw [hsome]
    rfl

/-- C18 at the one-row plan `TableReader_5 | 10000.00 | 177906.67`, with a
parser that knows the text `177906.67` and rejects every other text with the
text itself as the error. -/
theorem PlanCost_row0_col2_witness :
    Plan.PlanCost (fun s => if s = "177906.67" then ((17790667 : ℚ) / 100, none)
        else (0, some s)) ⟨[["TableReader_5", "10000.00", "177906.67"]]⟩
      = (.ok ((17790667 : ℚ) / 100) : Except (Failure String) ℚ) :=
  (PlanCost_row0_col2 (fun s => if s = "177906.67" then ((17790667 : ℚ) / 100, none)
      else (0, some s)) ⟨[["TableReader_5", "10000.00", "177906.67"]]⟩
    ["TableReader_5", "10000.00", "177906.67"] [] rfl (by decide)).1 rfl

/-! ### C19: executed plans -/

/-- C19: for a plan with at least one row, `IsExecuted` returns, and it is
true if and only if the first row has exactly 10 cells. -/
theorem IsExecuted_iff_ten_cells (p : Workload.Plan) (row : List String)
    (rest : List (List String)) (hp : p.Plan = row :: rest) :
    p.IsExecuted = some (decide (row.length = 10)) := by
  unfold Plan.IsExecuted
  rw [hp]
  cases h : decide (row.length = 10) <;> simp_all

/-- C19 at the executed plan row of the source's comment, which has ten
cells. -/
theorem IsExecuted_iff_ten_cells_witness :
    Plan.IsExecuted ⟨[["TableReader_5", "10000.00", "177906.67", "0", "root", "-",
        "time:3.15ms, loops:1", "data:TableFullScan_4", "174 Bytes", "N/A"]]⟩
      = some (decide (10 = 10)) :=
  IsExecuted_iff_ten_cells _ _ [] rfl

/-! ## The selection engine -/

/-- The configuration picked by `pickBest` is the initial one or one of the
enumerated ones. -/
theorem pickBest_mem {E : Type} (eval : List Index → Except E IndexConfCost)
    (confs : List (List Index)) (best r : List Index × IndexConfCost)
    (h : pickBest eval confs best = .ok r) : r = best ∨ r.1 ∈ confs := by
  induction confs generalizing best with
  | nil =>
    simp only [pickBest, Except.ok.injEq] at h
    exact Or.inl h.symm
  | cons conf rest ih =>
    unfold pickBest at h
    cases hev : eval conf with
    | error e => rw [hev] at h; cases h
    | ok cost =>
      rw [hev] at h
      simp only at h
      split at h
      · rcases ih _ h with h1 | h1
        · right; rw [h1]; exact List.mem_cons_self _ _
        · right; exact List.mem_cons_of_mem _ h1
      · rcases ih _ h with h1 | h1
        · exact Or.inl h1
        · right; exact List.mem_cons_of_mem _ h1

/-- Every enumerated subset has at most `K` elements. -/
theorem subsetsUpTo_length (K : Nat) (C conf : List Index) (h : conf ∈ subsetsUpTo K C) :
    conf.length ≤ K := by
  unfold subsetsUpTo at h
  rw [List.mem_flatMap] at h
  obtain ⟨k, hk, hmem⟩ := h
  rw [List.mem_reverse] at hmem
  rw [List.length_of_sublistsLen hmem]
  exact Nat.lt_succ_iff.1 (List.mem_range.1 hk)

/-- The greedy loop, started below `K`, ends at or below `K`. -/
theorem greedyExtend_length {E : Type} (eval : List Index → Except E IndexConfCost) (K : Nat)
    (rounds : Nat) (conf : List Index) (cost : IndexConfCost) (remaining R : List Index)
    (hle : conf.length ≤ K) (h : greedyExtend eval K rounds conf cost remaining = .ok R) :
    R.length ≤ K := by
  induction rounds generalizing conf cost remaining with
  | zero =>
    simp only [greedyExtend, Except.ok.injEq] at h
    rw [← h]; exact hle
  | succ n ih =>
    unfold greedyExtend at h
    by_cases hK : conf.length = K
    · rw [if_pos hK] at h
      simp only [Except.ok.injEq] at h
      rw [← h]; exact hle
    · rw [if_neg hK] at h
      cases hb : bestAddition eval conf remaining (none, cost) with
      | error e => rw [hb] at h; cases h
      | ok b =>
        rw [hb] at h
        obtain ⟨oc, c2⟩ := b
        cases oc with
        | none =>
          simp only [Except.ok.injEq] at h
          rw [← h]; exact hle
        | some c =>
          simp only at h
          refine ih _ _ _ ?_ h
          rw [List.length_append, List.length_singleton]
          omega

/-- `enumerate-greedy` returns at most `K` indexes. -/
theorem enumerateGreedy_length {E : Type} (eval : List Index → Except E IndexConfCost)
    (naiveThreshold K : Nat) (C R : List Index)
    (h : enumerateGreedy eval naiveThreshold K C = .ok R) : R.length ≤ K := by
  unfold enumerateGreedy at h
  simp only at h
  split at h
  · cases hp : pickBest eval (subsetsUpTo K (sortByKey C)) ([], uninitializedCost) with
    | error e => rw [hp] at h; cases h
    | ok best =>
      rw [hp] at h
      simp only [Except.ok.injEq] at h
      rw [← h]
      rcases pickBest_mem _ _ _ _ hp with h1 | h1
      · rw [h1]; exact Nat.zero_le _
      · exact subsetsUpTo_length _ _ _ h1
  · cases hp : pickBest eval ((sortByKey C).sublistsLen (min naiveThreshold K)).reverse
        ([], uninitializedCost) with
    | error e => rw [hp] at h; cases h
    | ok seed =>
      rw [hp] at h
      simp only at h
      refine greedyExtend_length _ _ _ _ _ _ _ ?_ h
      rcases pickBest_mem _ _ _ _ hp with h1 | h1
      · rw [h1]; exact Nat.zero_le _
      · rw [List.mem_reverse] at h1
        rw [List.length_of_sublistsLen h1]
        exact Nat.min_le_right _ _

/-- The best configuration over the widths has at most `K` indexes. -/
theorem widen_length {E : Type} (eval : List Index → Except E IndexConfCost) (W : WorkloadInfo)
    (naiveThreshold K : Nat) (widths : Nat) (C : List Index)
    (best r : List Index × IndexConfCost) (hbest : best.1.length ≤ K)
    (h : widen eval W naiveThreshold K widths C best = .ok r) : r.1.length ≤ K := by
  induction widths generalizing C best with
  | zero =>
    simp only [widen, Except.ok.injEq] at h
    rw [← h]; exact hbest
  | succ n ih =>
    unfold widen at h
    split at h
    · simp only [Except.ok.injEq] at h
      rw [← h]; exact hbest
    · cases hg : enumerateGreedy eval naiveThreshold K C with
      | error e => rw [hg] at h; cases h
      | ok conf =>
        rw [hg] at h
        simp only at h
        cases hev : eval conf with
        | error e => rw [hev] at h; cases h
        | ok cost =>
          rw [hev] at h
          simp only at h
          refine ih _ _ ?_ h
          split
          · exact enumerateGreedy_length _ _ _ _ _ hg
          · exact hbest

/-- Minimality only removes indexes. -/
theorem dropRedundant_length {E : Type} (eval : List Index → Except E IndexConfCost)
    (order conf R : List Index) (cost : IndexConfCost)
    (h : dropRedundant eval order conf cost = .ok R) : R.length ≤ conf.length := by
  induction order generalizing conf cost with
  | nil =>
    simp only [dropRedundant, Except.ok.injEq] at h
    rw [← h]
  | cons I rest ih =>
    unfold dropRedundant at h
    cases hev : eval (conf.filter fun J => J.Key != I.Key) with
    | error e => rw [hev] at h; cases h
    | ok cost2 =>
      rw [hev] at h
      simp only at h
      split at h
      · exact le_trans (ih _ _ h) (List.length_filter_le _ _)
      · exact ih _ _ h

/-! ### C20: at most `K` indexes -/

/-- C20: for every workload, every `K = MaximumIndexesToRecommend`, every
width and threshold and every what-if optimizer, a configuration returned by
`SelectIndexAAAlgo` contains at most `K` indexes. -/
theorem SelectIndexAAAlgo_length_le {ε : Type} (ParseFloat : String → ℚ × Option ε)
    (W : WorkloadInfo) (parameter : Parameter) (opt : WhatIfOptimizer ε) (R : List Index)
    (h : SelectIndexAAAlgo ParseFloat W parameter opt = .ok R) :
    (R.length : Int) ≤ parameter.MaximumIndexesToRecommend := by
  unfold SelectIndexAAAlgo at h
  split at h
  · cases h
  · rename_i hK
    cases hw : widen (EvaluateIndexConfCost ParseFloat W opt) W
        parameter.NaiveEnumerationThreshold parameter.MaximumIndexesToRecommend.toNat
        parameter.MaximumColumnsPerIndex (singleColumnCandidates W) ([], uninitializedCost) with
    | error f => rw [hw] at h; cases h
    | ok best =>
      rw [hw] at h
      simp only at h
      have hb := widen_length _ W _ _ _ _ _ _ (Nat.zero_le _) hw
      cases hd : dropRedundant (EvaluateIndexConfCost ParseFloat W opt) (sortByKey best.1)
          best.1 best.2 with
      | error f => rw [hd] at h; cases h
      | ok conf =>
        rw [hd] at h
        simp only [Except.ok.injEq] at h
        have hl := dropRedundant_length _ _ _ _ _ hd
        rw [← h]
        omega

set_option maxRecDepth 100000 in
/-- C20 at `K = 1` with the threshold 2 on `exampleWorkload`: of the four
candidates, more than threshold plus `K`, the greedy branch seeds with the
best single index `test.t(a)` and stops at one index; the wider candidate
`test.t(a,c)` is not cheaper, and the one index is returned. -/
theorem SelectIndexAAAlgo_length_le_witness :
    SelectIndexAAAlgo exampleParseFloat exampleWorkload
        { MaximumIndexesToRecommend := 1, MaximumColumnsPerIndex := 3,
          NaiveEnumerationThreshold := 2 } exampleOptimizer
      = .ok [{ SchemaName := "test", TableName := "t", IndexName := "test_t_a",
               Columns := [exampleColumn "a"] }] ∧
    ((1 : Nat) : Int) ≤ 1 :=
  have hrun : SelectIndexAAAlgo exampleParseFloat exampleWorkload
        { MaximumIndexesToRecommend := 1, MaximumColumnsPerIndex := 3,
          NaiveEnumerationThreshold := 2 } exampleOptimizer
      = .ok [{ SchemaName := "test", TableName := "t", IndexName := "test_t_a",
               Columns := [exampleColumn "a"] }] := by
    with_unfolding_all rfl
  ⟨hrun, SelectIndexAAAlgo_length_le exampleParseFloat exampleWorkload _ exampleOptimizer _ hrun⟩

/-! ### C21: no recommended index is covered by an existing one -/

theorem mem_sortByKey (l : List Index) (I : Index) : I ∈ sortByKey l ↔ I ∈ l :=
  (List.perm_insertionSort _ l).mem_iff

/-- The candidate picked by a greedy step is one of the candidates tried. -/
theorem bestAddition_mem {E : Type} (eval : List Index → Except E IndexConfCost)
    (conf cands : List Index) (best r : Option Index × IndexConfCost)
    (h : bestAddition eval conf cands best = .ok r) :
    r.1 = best.1 ∨ ∃ c ∈ cands, r.1 = some c := by
  induction cands generalizing best with
  | nil =>
    simp only [bestAddition, Except.ok.injEq] at h
    exact Or.inl (by rw [h])
  | cons c rest ih =>
    unfold bestAddition at h
    cases hev : eval (conf ++ [c]) with
    | error e => rw [hev] at h; cases h
    | ok cost =>
      rw [hev] at h
      simp only at h
      split at h
      · rcases ih _ h with h1 | ⟨d, hd, h1⟩
        · exact Or.inr ⟨c, List.mem_cons_self _ _, h1⟩
        · exact Or.inr ⟨d, List.mem_cons_of_mem _ hd, h1⟩
      · rcases ih _ h with h1 | ⟨d, hd, h1⟩
        · exact Or.inl h1
        · exact Or.inr ⟨d, List.mem_cons_of_mem _ hd, h1⟩

/-- The greedy loop returns indexes of its start configuration and of its
candidates. -/
theorem greedyExtend_mem {E : Type} (eval : List Index → Except E IndexConfCost) (K : Nat)
    (rounds : Nat) (conf : List Index) (cost : IndexConfCost) (remaining R : List Index)
    (h : greedyExtend eval K rounds conf cost remaining = .ok R) :
    ∀ I ∈ R, I ∈ conf ∨ I ∈ remaining := by
  induction rounds generalizing conf cost remaining with
  | zero =>
    simp only [greedyExtend, Except.ok.injEq] at h
    intro I hI
    rw [← h] at hI
    exact Or.inl hI
  | succ n ih =>
    unfold greedyExtend at h
    by_cases hK : conf.length = K
    · rw [if_pos hK] at h
      simp only [Except.ok.injEq] at h
      intro I hI
      rw [← h] at hI
      exact Or.inl hI
    · rw [if_neg hK] at h
      cases hb : bestAddition eval conf remaining (none, cost) with
      | error e => rw [hb] at h; cases h
      | ok b =>
        rw [hb] at h
        obtain ⟨oc, c2⟩ := b
        cases oc with
        | none =>
          simp only [Except.ok.injEq] at h
          intro I hI
          rw [← h] at hI
          exact Or.inl hI
        | some c =>
          simp only at h
          have hc : c ∈ remaining := by
            rcases bestAddition_mem _ _ _ _ _ hb with h1 | ⟨d, hd, h1⟩
            · cases h1
            · simp only [Option.some.injEq] at h1
              rw [h1]; exact hd
          intro I hI
          rcases ih _ _ _ h I hI with h1 | h1
          · rcases List.mem_append.1 h1 with h2 | h2
            · exact Or.inl h2
            · rw [List.mem_singleton] at h2
              rw [h2]; exact Or.inr hc
          · exact Or.inr (List.mem_of_mem_filter h1)

/-- The configuration returned by `enumerate-greedy` is made of candidates. -/
theorem enumerateGreedy_mem {E : Type} (eval : List Index → Except E IndexConfCost)
    (naiveThreshold K : Nat) (C R : List Index)
    (h : enumerateGreedy eval naiveThreshold K C = .ok R) : ∀ I ∈ R, I ∈ C := by
  unfold enumerateGreedy at h
  simp only at h
  split at h
  · cases hp : pickBest eval (subsetsUpTo K (sortByKey C)) ([], uninitializedCost) with
    | error e => rw [hp] at h; cases h
    | ok best =>
      rw [hp] at h
      simp only [Except.ok.injEq] at h
      intro I hI
      rw [← h] at hI
      rcases pickBest_mem _ _ _ _ hp with h1 | h1
      · rw [h1] at hI; cases hI
      · unfold subsetsUpTo at h1
        rw [List.mem_flatMap] at h1
        obtain ⟨k, _, hmem⟩ := h1
        rw [List.mem_reverse, List.mem_sublistsLen] at hmem
        exact (mem_sortByKey C I).1 (hmem.1.subset hI)
  · cases hp : pickBest eval ((sortByKey C).sublistsLen (min naiveThreshold K)).reverse
        ([], uninitializedCost) with
    | error e => rw [hp] at h; cases h
    | ok seed =>
      rw [hp] at h
      simp only at h
      intro I hI
      rcases greedyExtend_mem _ _ _ _ _ _ _ h I hI with h1 | h1
      · rcases pickBest_mem _ _ _ _ hp with h2 | h2
        · rw [h2] at h1; cases h1
        · rw [List.mem_reverse, List.mem_sublistsLen] at h2
          exact (mem_sortByKey C I).1 (h2.1.subset h1)
      · exact (mem_sortByKey C I).1 (List.mem_of_mem_filter h1)

/-- A property of all candidates of every width is a property of the best
configuration over the widths. -/
theorem widen_forall {E : Type} (eval : List Index → Except E IndexConfCost) (W : WorkloadInfo)
    (naiveThreshold K : Nat) (P : Index → Prop)
    (hext : ∀ S : List Index, ∀ I ∈ multiColumnCandidates W S, P I)
    (widths : Nat) (C : List Index) (best r : List Index × IndexConfCost)
    (hC : ∀ I ∈ C, P I) (hbest : ∀ I ∈ best.1, P I)
    (h : widen eval W naiveThreshold K widths C best = .ok r) : ∀ I ∈ r.1, P I := by
  induction widths generalizing C best with
  | zero =>
    simp only [widen, Except.ok.injEq] at h
    rw [← h]; exact hbest
  | succ n ih =>
    unfold widen at h
    split at h
    · simp only [Except.ok.injEq] at h
      rw [← h]; exact hbest
    · cases hg : enumerateGreedy eval naiveThreshold K C with
      | error e => rw [hg] at h; cases h
      | ok conf =>
        rw [hg] at h
        simp only at h
        cases hev : eval conf with
        | error e => rw [hev] at h; cases h
        | ok cost =>
          rw [hev] at h
          simp only at h
          refine ih _ _ (hext conf) ?_ h
          split
          · intro I hI
            exact hC I (enumerateGreedy_mem _ _ _ _ _ hg I hI)
          · exact hbest

/-- Minimality returns indexes of the configuration it is given. -/
theorem dropRedundant_mem {E : Type} (eval : List Index → Except E IndexConfCost)
    (order conf R : List Index) (cost : IndexConfCost)
    (h : dropRedundant eval order conf cost = .ok R) : ∀ I ∈ R, I ∈ conf := by
  induction order generalizing conf cost with
  | nil =>
    simp only [dropRedundant, Except.ok.injEq] at h
    rw [← h]; exact fun _ hI => hI
  | cons J rest ih =>
    unfold dropRedundant at h
    cases hev : eval (conf.filter fun L => L.Key != J.Key) with
    | error e => rw [hev] at h; cases h
    | ok cost2 =>
      rw [hev] at h
      simp only at h
      split at h
      · exact fun I hI => List.mem_of_mem_filter (ih _ _ h I hI)
      · exact ih _ _ h

/-- An index that is not covered is prefix-contained in no index of any
table of the workload. -/
theorem not_covered_iff (W : WorkloadInfo) (I : Index) :
    coveredByExisting W I = false ↔
      ∀ t ∈ W.TableSchemas, ∀ E ∈ t.Indexes, E.PrefixContain I = false := by
  unfold coveredByExisting
  rw [List.any_eq_false]
  constructor
  · intro h t ht E hE
    have := h t ht
    rw [Bool.not_eq_true, List.any_eq_false] at this
    simpa using this E hE
  · intro h t ht
    rw [Bool.not_eq_true, List.any_eq_false]
    intro E hE
    simpa using h t ht E hE

/-- C21: no index of a configuration returned by `SelectIndexAAAlgo` is
prefix-contained in an index that already exists: for every returned index `I`
and every index `E` of a table of the workload, `E.PrefixContain(I)` is
false. -/
theorem SelectIndexAAAlgo_not_covered {ε : Type} (ParseFloat : String → ℚ × Option ε)
    (W : WorkloadInfo) (parameter : Parameter) (opt : WhatIfOptimizer ε) (R : List Index)
    (I : Index) (t : TableSchema) (E : Index)
    (h : SelectIndexAAAlgo ParseFloat W parameter opt = .ok R)
    (hI : I ∈ R) (ht : t ∈ W.TableSchemas) (hE : E ∈ t.Indexes) :
    E.PrefixContain I = false := by
  have hfilter : ∀ (l : List Index) (J : Index),
      J ∈ l.filter (fun X => !coveredByExisting W X) → coveredByExisting W J = false := by
    intro l J hJ
    simpa using (List.mem_filter.1 hJ).2
  unfold SelectIndexAAAlgo at h
  split at h
  · cases h
  · cases hw : widen (EvaluateIndexConfCost ParseFloat W opt) W
        parameter.NaiveEnumerationThreshold parameter.MaximumIndexesToRecommend.toNat
        parameter.MaximumColumnsPerIndex (singleColumnCandidates W) ([], uninitializedCost) with
    | error f => rw [hw] at h; cases h
    | ok best =>
      rw [hw] at h
      simp only at h
      have hb := widen_forall _ W _ _ (fun J => coveredByExisting W J = false)
        (fun S J hJ => hfilter _ J hJ) _ _ _ _
        (fun J hJ => hfilter _ J hJ) (fun J hJ => by cases hJ) hw
      cases hd : dropRedundant (EvaluateIndexConfCost ParseFloat W opt) (sortByKey best.1)
          best.1 best.2 with
      | error f => rw [hd] at h; cases h
      | ok conf =>
        rw [hd] at h
        simp only [Except.ok.injEq] at h
        rw [← h] at hI
        have hcov := hb I (dropRedundant_mem _ _ _ _ _ hd I hI)
        exact (not_covered_iff W I).1 hcov t ht E hE

set_option maxRecDepth 100000 in
/-- C21 on the table `t(a, b, c, key(a))` of the tests, with `K = 1`: the
candidate `test.t(a)` is pruned, `test.t(b)` is returned, and the existing
index on `a` does not prefix-contain it. -/
theorem SelectIndexAAAlgo_not_covered_witness :
    SelectIndexAAAlgo exampleParseFloat keyedWorkload
        { MaximumIndexesToRecommend := 1, MaximumColumnsPerIndex := 3,
          NaiveEnumerationThreshold := 2 } keyedOptimizer
      = .ok [{ SchemaName := "test", TableName := "t", IndexName := "test_t_b",
               Columns := [exampleColumn "b"] }] ∧
    Index.PrefixContain
      { SchemaName := "test", TableName := "t", IndexName := "a",
        Columns := [exampleColumn "a"] }
      { SchemaName := "test", TableName := "t", IndexName := "test_t_b",
        Columns := [exampleColumn "b"] } = false :=
  have hrun : SelectIndexAAAlgo exampleParseFloat keyedWorkload
        { MaximumIndexesToRecommend := 1, MaximumColumnsPerIndex := 3,
          NaiveEnumerationThreshold := 2 } keyedOptimizer
      = .ok [{ SchemaName := "test", TableName := "t", IndexName := "test_t_b",
               Columns := [exampleColumn "b"] }] := by
    with_unfolding_all rfl
  ⟨hrun, SelectIndexAAAlgo_not_covered exampleParseFloat keyedWorkload _ keyedOptimizer _
    { SchemaName := "test", TableName := "t", IndexName := "test_t_b",
      Columns := [exampleColumn "b"] }
    { SchemaName := "test", TableName := "t",
      Columns := [exampleColumn "a", exampleColumn "b", exampleColumn "c"],
      Indexes := [{ SchemaName := "test", TableName := "t", IndexName := "a",
                    Columns := [exampleColumn "a"] }],
      CreateStmtText := "create table t (a int, b int, c int, key(a))" }
    { SchemaName := "test", TableName := "t", IndexName := "a",
      Columns := [exampleColumn "a"] }
    hrun (List.mem_singleton.2 rfl) (List.mem_singleton.2 rfl) (List.mem_singleton.2 rfl)⟩

/-! ## The test helper `newIndex4Test` -/

/-- Splitting at a separator that occurs once, between `a` and `b`. -/
theorem splitOn_pair (x : Char) (a b : List Char) (ha : x ∉ a) (hb : x ∉ b) :
    (a ++ x :: b).splitOn x = [a, b] := by
  have h := List.splitOn_intercalate [a, b] x
    (by intro l hl; simp at hl; rcases hl with rfl | rfl <;> assumption) (by simp)
  have e : [x].intercalate [a, b] = a ++ x :: b := by
    simp [List.intercalate, List.intersperse]
  rw [e] at h
  exact h

/-- A character of a joined string is a character of the separator or of one
of the joined strings. -/
theorem mem_intercalate_data (sep : String) (l : List String) (ch : Char)
    (h : ch ∈ (String.intercalate sep l).data) :
    ch ∈ sep.data ∨ ∃ c ∈ l, ch ∈ c.data := by
  cases l with
  | nil => simp [String.intercalate] at h
  | cons a as =>
    simp only [String.intercalate, intercalate_go_data, List.mem_append, List.mem_flatten,
      List.mem_map] at h
    rcases h with h | ⟨L, ⟨c, hc, rfl⟩, hch⟩
    · exact Or.inr ⟨a, List.mem_cons_self _ _, h⟩
    · rcases List.mem_append.1 hch with h1 | h1
      · exact Or.inl h1
      · exact Or.inr ⟨c, List.mem_cons_of_mem _ hc, h1⟩

/-- A string is its own lower-case form exactly when each of its characters
is. -/
theorem ToLower_eq_self_iff (x : String) :
    ToLower x = x ↔ ∀ ch ∈ x.data, ch.toLower = ch := by
  unfold ToLower
  constructor
  · intro h ch hch
    have hd : x.data.map Char.toLower = x.data := congrArg String.data h
    have key : ∀ l : List Char, l.map Char.toLower = l → ∀ c ∈ l, c.toLower = c := by
      intro l
      induction l with
      | nil => intro _ c hc; cases hc
      | cons y ys ih =>
        intro hl c hc
        simp only [List.map_cons, List.cons.injEq] at hl
        rcases List.mem_cons.1 hc with rfl | hc2
        · exact hl.1
        · exact ih hl.2 c hc2
    exact key _ hd ch hch
  · intro h
    apply String.ext
    show x.data.map Char.toLower = x.data
    have key : ∀ l : List Char, (∀ c ∈ l, c.toLower = c) → l.map Char.toLower = l := by
      intro l
      induction l with
      | nil => intro _; rfl
      | cons y ys ih =>
        intro hl
        rw [List.map_cons, hl y (List.mem_cons_self _ _),
          ih (fun c hc => hl c (List.mem_cons_of_mem _ hc))]
    exact key _ h

theorem ToLower_append (a b : String) : ToLower (a ++ b) = ToLower a ++ ToLower b := by
  apply String.ext
  simp [ToLower, String.data_append]

/-- The name that `newIndex4Test` builds from lower-case parts is in lower
case. -/
theorem ToLower_candidate_name (s t : String) (cs : List String)
    (hs : ToLower s = s) (ht : ToLower t = t) (hcs : ∀ c ∈ cs, ToLower c = c) :
    ToLower (s ++ "_" ++ t ++ "_" ++ String.intercalate "_" cs)
      = s ++ "_" ++ t ++ "_" ++ String.intercalate "_" cs := by
  have hj : ToLower (String.intercalate "_" cs) = String.intercalate "_" cs := by
    rw [ToLower_eq_self_iff]
    intro ch hch
    rcases mem_intercalate_data _ _ _ hch with h1 | ⟨c, hc, h1⟩
    · have : ch = '_' := by simpa using h1
      rw [this]; decide
    · exact (ToLower_eq_self_iff c).1 (hcs c hc) ch h1
  have hu : ToLower "_" = "_" := by decide
  rw [ToLower_append, ToLower_append, ToLower_append, ToLower_append, hs, ht, hu, hj]

/-- What `newIndex4Test` reads from a well-formed key. -/
theorem newIndex4Test_parse (s t : String) (cs : List String)
    (hs : '.' ∉ s.data) (ht : '.' ∉ t.data ∧ '(' ∉ t.data)
    (hcs : ∀ c ∈ cs, '.' ∉ c.data ∧ '(' ∉ c.data ∧ ',' ∉ c.data) (hne : cs ≠ []) :
    newIndex4Test (s ++ "." ++ t ++ "(" ++ String.intercalate "," cs ++ ")")
      = some (NewIndex s t (s ++ "_" ++ t ++ "_" ++ String.intercalate "_" cs) cs) := by
  have hJ : ∀ ch, ch ∈ (String.intercalate "," cs).data → ch = ',' ∨ ∃ c ∈ cs, ch ∈ c.data := by
    intro ch hch
    rcases mem_intercalate_data _ _ _ hch with h1 | h1
    · left; simpa using h1
    · exact Or.inr h1
  have hJdot : '.' ∉ (String.intercalate "," cs).data := by
    intro h
    rcases hJ _ h with h1 | ⟨c, hc, h1⟩
    · exact absurd h1 (by decide)
    · exact (hcs c hc).1 h1
  have hJpar : '(' ∉ (String.intercalate "," cs).data := by
    intro h
    rcases hJ _ h with h1 | ⟨c, hc, h1⟩
    · exact absurd h1 (by decide)
    · exact (hcs c hc).2.1 h1
  have hkey : (s ++ "." ++ t ++ "(" ++ String.intercalate "," cs ++ ")").data
      = s.data ++ '.' :: (t.data ++ '(' :: ((String.intercalate "," cs).data ++ [')'])) := by
    simp [String.data_append]
  have h1 : Split (s ++ "." ++ t ++ "(" ++ String.intercalate "," cs ++ ")") '.'
      = [s, ⟨t.data ++ '(' :: ((String.intercalate "," cs).data ++ [')'])⟩] := by
    unfold Split
    rw [hkey, splitOn_pair _ _ _ hs]
    · rfl
    · intro h
      simp only [List.mem_append, List.mem_cons, List.mem_singleton] at h
      rcases h with h | h | h | h
      · exact ht.1 h
      · exact absurd h (by decide)
      · exact hJdot h
      · rcases h with h | h
        · exact absurd h (by decide)
        · cases h
  have h2 : Split ⟨t.data ++ '(' :: ((String.intercalate "," cs).data ++ [')'])⟩ '('
      = [t, ⟨(String.intercalate "," cs).data ++ [')']⟩] := by
    unfold Split
    rw [splitOn_pair _ _ _ ht.2]
    · rfl
    · intro h
      simp only [List.mem_append, List.mem_singleton] at h
      rcases h with h | h
      · exact hJpar h
      · exact absurd h (by decide)
  have h3 : Split ⟨(String.intercalate "," cs).data⟩ ',' = cs := by
    unfold Split
    rw [intercalate_data]
    have hsep : (",".data : List Char) = [','] := rfl
    rw [hsep, List.splitOn_intercalate (cs.map String.data) ','
      (by
        intro l hl
        obtain ⟨c, hc, rfl⟩ := List.mem_map.1 hl
        exact (hcs c hc).2.2)
      (by simpa using hne)]
    rw [List.map_map]
    exact List.map_id'' (fun _ => rfl) cs
  unfold newIndex4Test
  simp only [h1, h2, List.getElem?_cons_zero, List.getElem?_cons_succ]
  have hlen : ¬ (String.length ⟨(String.intercalate "," cs).data ++ [')']⟩ = 0) := by
    intro h
    have h0 : ((String.intercalate "," cs).data ++ [')']).length = 0 := h
    rw [List.length_append, List.length_singleton] at h0
    omega
  rw [if_neg hlen]
  simp only [List.dropLast_concat, h3]

/-! ### C22: parsing a key and rebuilding it -/

/-- C22: for a key `s.t(c1,...,cn)` with `n ≥ 1` whose names are in lower case,
with no `.` in `s`, no `.` and no `(` in `t`, and none of `.`, `(` and `,` in a
column name, `newIndex4Test` returns an index whose `Key` is the key it was
given and whose name is `s_t_c1_..._cn`. -/
theorem newIndex4Test_round_trip (s t : String) (cs : List String)
    (hs : '.' ∉ s.data) (ht : '.' ∉ t.data ∧ '(' ∉ t.data)
    (hcs : ∀ c ∈ cs, '.' ∉ c.data ∧ '(' ∉ c.data ∧ ',' ∉ c.data) (hne : cs ≠ [])
    (hls : ToLower s = s) (hlt : ToLower t = t) (hlcs : ∀ c ∈ cs, ToLower c = c) :
    ∃ I, newIndex4Test (s ++ "." ++ t ++ "(" ++ String.intercalate "," cs ++ ")") = some I ∧
      I.Key = s ++ "." ++ t ++ "(" ++ String.intercalate "," cs ++ ")" ∧
      I.IndexName = s ++ "_" ++ t ++ "_" ++ String.intercalate "_" cs := by
  refine ⟨_, newIndex4Test_parse s t cs hs ht hcs hne, ?_, ?_⟩
  · have hnames : (NewIndex s t (s ++ "_" ++ t ++ "_" ++ String.intercalate "_" cs) cs).ColumnNames
        = cs := by
      rw [ColumnNames_eq_map]
      show (NewColumns s t cs).map Column.ColumnName = cs
      rw [NewColumns_eq_map, List.map_map]
      have : ∀ l : List String, (∀ c ∈ l, ToLower c = c) →
          l.map (Column.ColumnName ∘ NewColumn s t) = l := by
        intro l
        induction l with
        | nil => intro _; rfl
        | cons y ys ih =>
          intro hl
          rw [List.map_cons, ih (fun c hc => hl c (List.mem_cons_of_mem _ hc))]
          show ToLower y :: ys = y :: ys
          rw [hl y (List.mem_cons_self _ _)]
      exact this cs hlcs
    unfold Index.Key
    rw [hnames]
    show ToLower s ++ "." ++ ToLower t ++ "(" ++ String.intercalate "," cs ++ ")" = _
    rw [hls, hlt]
  · show ToLower (s ++ "_" ++ t ++ "_" ++ String.intercalate "_" cs) = _
    exact ToLower_candidate_name s t cs hls hlt hlcs

/-- C22 at the key `test.t(a,b)`. -/
theorem newIndex4Test_round_trip_witness :
    ∃ I, newIndex4Test ("test" ++ "." ++ "t" ++ "(" ++ String.intercalate "," ["a", "b"] ++ ")")
        = some I ∧
      I.Key = "test" ++ "." ++ "t" ++ "(" ++ String.intercalate "," ["a", "b"] ++ ")" ∧
      I.IndexName = "test" ++ "_" ++ "t" ++ "_" ++ String.intercalate "_" ["a", "b"] :=
  newIndex4Test_round_trip "test" "t" ["a", "b"] (by decide) (by decide) (by decide)
    (by decide) (by decide) (by decide) (by decide)

/-! ## `WorkloadInfo.AllSchemaNames` -/

/-- Positions in a list with one more copy of an element `n` of its front part
`seen` compare as positions in the list without that copy. -/
theorem indexOf_skip_seen (seen rest : List String) (n a b : String) (hn : n ∈ seen) :
    ((seen ++ n :: rest).indexOf a < (seen ++ n :: rest).indexOf b) ↔
      ((seen ++ rest).indexOf a < (seen ++ rest).indexOf b) := by
  have key : ∀ c : String,
      (c ∈ seen ∧ (seen ++ n :: rest).indexOf c = (seen ++ rest).indexOf c ∧
          (seen ++ rest).indexOf c < seen.length) ∨
        (c ∉ seen ∧ (seen ++ n :: rest).indexOf c = (seen ++ rest).indexOf c + 1 ∧
          seen.length ≤ (seen ++ rest).indexOf c) := by
    intro c
    by_cases hc : c ∈ seen
    · left
      refine ⟨hc, ?_, ?_⟩
      · rw [List.indexOf_append_of_mem hc, List.indexOf_append_of_mem hc]
      · rw [List.indexOf_append_of_mem hc]
        exact List.indexOf_lt_length.2 hc
    · right
      have hne : n ≠ c := fun e => hc (e ▸ hn)
      refine ⟨hc, ?_, ?_⟩
      · rw [List.indexOf_append_of_not_mem hc, List.indexOf_append_of_not_mem hc,
          List.indexOf_cons_ne _ hne]
        omega
      · rw [List.indexOf_append_of_not_mem hc]
        omega
  rcases key a with ⟨_, ea, la⟩ | ⟨_, ea, la⟩ <;> rcases key b with ⟨_, eb, lb⟩ | ⟨_, eb, lb⟩ <;>
    rw [ea, eb] <;> omega

/-- The invariant of the loop of `AllSchemaNames`, from any state in which the
map and the slice hold the same names, each once. -/
theorem AllSchemaNames_loop (ts : List TableSchema) (st : List String × List String)
    (hx : ∀ n, n ∈ st.1 ↔ n ∈ st.2) (hnd : st.2.Nodup) :
    (∀ n, n ∈ (ts.foldl (fun (st : List String × List String) t =>
          if t.SchemaName ∈ st.1 then st
          else (t.SchemaName :: st.1, st.2 ++ [t.SchemaName])) st).2 ↔
        n ∈ st.2 ∨ ∃ t ∈ ts, t.SchemaName = n) ∧
      (ts.foldl (fun (st : List String × List String) t =>
          if t.SchemaName ∈ st.1 then st
          else (t.SchemaName :: st.1, st.2 ++ [t.SchemaName])) st).2.Nodup ∧
      (∀ a b,
        ((ts.foldl (fun (st : List String × List String) t =>
            if t.SchemaName ∈ st.1 then st
            else (t.SchemaName :: st.1, st.2 ++ [t.SchemaName])) st).2.indexOf a <
          (ts.foldl (fun (st : List String × List String) t =>
            if t.SchemaName ∈ st.1 then st
            else (t.SchemaName :: st.1, st.2 ++ [t.SchemaName])) st).2.indexOf b) ↔
        ((st.2 ++ ts.map TableSchema.SchemaName).indexOf a <
          (st.2 ++ ts.map TableSchema.SchemaName).indexOf b)) := by
  induction ts generalizing st with
  | nil =>
    refine ⟨fun n => by simp, hnd, fun a b => by simp⟩
  | cons t ts ih =>
    rw [List.foldl_cons]
    by_cases hmem : t.SchemaName ∈ st.1
    · rw [if_pos hmem]
      obtain ⟨h1, h2, h3⟩ := ih st hx hnd
      refine ⟨fun n => ?_, h2, fun a b => ?_⟩
      · rw [h1 n]
        constructor
        · rintro (h | ⟨u, hu, rfl⟩)
          · exact Or.inl h
          · exact Or.inr ⟨u, List.mem_cons_of_mem _ hu, rfl⟩
        · rintro (h | ⟨u, hu, rfl⟩)
          · exact Or.inl h
          · rcases List.mem_cons.1 hu with rfl | hu2
            · exact Or.inl ((hx _).1 hmem)
            · exact Or.inr ⟨u, hu2, rfl⟩
      · rw [h3 a b, List.map_cons]
        exact (indexOf_skip_seen st.2 _ t.SchemaName a b ((hx _).1 hmem)).symm
    · rw [if_neg hmem]
      have hnot : t.SchemaName ∉ st.2 := fun h => hmem ((hx _).2 h)
      obtain ⟨h1, h2, h3⟩ := ih (t.SchemaName :: st.1, st.2 ++ [t.SchemaName])
        (fun n => by
          simp only [List.mem_cons, List.mem_append, List.not_mem_nil, or_false, hx n]
          exact or_comm)
        (by
          apply List.Nodup.append hnd (List.nodup_singleton _)
          intro n hn hn2
          rw [List.mem_singleton] at hn2
          exact hnot (hn2 ▸ hn))
      refine ⟨fun n => ?_, h2, fun a b => ?_⟩
      · rw [h1 n]
        simp only [List.mem_append, List.mem_cons, List.not_mem_nil, or_false]
        constructor
        · rintro ((h | h) | ⟨u, hu, rfl⟩)
          · exact Or.inl h
          · exact Or.inr ⟨t, Or.inl rfl, h.symm⟩
          · exact Or.inr ⟨u, Or.inr hu, rfl⟩
        · rintro (h | ⟨u, rfl | hu, rfl⟩)
          · exact Or.inl (Or.inl h)
          · exact Or.inl (Or.inr rfl)
          · exact Or.inr ⟨u, hu, rfl⟩
      · rw [h3 a b, List.map_cons]
        simp only [List.append_assoc, List.singleton_append]

/-! ### C23: the schema names of a workload -/

/-- C23: `AllSchemaNames` returns the schema names of the tables, each once, in
the order of their first occurrence: a name is in the result exactly when it
is the `SchemaName` of a table of the list, the result has no name twice, one
name of the result comes before another exactly when its first occurrence in
the list of tables comes first, and the result is empty for no tables. -/
theorem AllSchemaNames_first_occurrences (w : WorkloadInfo) :
    (∀ n, n ∈ w.AllSchemaNames ↔ ∃ t ∈ w.TableSchemas, t.SchemaName = n) ∧
      w.AllSchemaNames.Nodup ∧
      (∀ a ∈ w.AllSchemaNames, ∀ b ∈ w.AllSchemaNames,
        (w.AllSchemaNames.indexOf a < w.AllSchemaNames.indexOf b ↔
          (w.TableSchemas.map TableSchema.SchemaName).indexOf a <
            (w.TableSchemas.map TableSchema.SchemaName).indexOf b)) ∧
      (w.TableSchemas = [] → w.AllSchemaNames = []) := by
  obtain ⟨h1, h2, h3⟩ := AllSchemaNames_loop w.TableSchemas ([], [])
    (fun n => Iff.rfl) List.nodup_nil
  refine ⟨fun n => ?_, h2, fun a _ b _ => ?_, fun h => ?_⟩
  · have := h1 n
    simp only [List.not_mem_nil, false_or] at this
    exact this
  · have := h3 a b
    simp only [List.nil_append] at this
    exact this
  · unfold WorkloadInfo.AllSchemaNames
    rw [h]
    rfl

end Workload
